import Mathlib

/-!
Verification development for the snaperz-extenders repository.

The repository simulates a "snaperz extender" chain mechanism: a sequence of
kLength + 1 block segments that push and pull blocks between each other on
every pulse.  Two engines exist: a scalar linked-segment engine
(snaperz_extender_fallback.h) and an AVX2 sliding-window engine
(snaperz_extender_avx2.h).  Both are embedded shallowly below.  The C++
compile-time constants kLength, kPushLimit, kLastPushLimit are passed as
explicit parameters.  Out-of-bounds accesses and non-terminating loops of the
C++ (undefined behaviour) are modelled by Option-valued functions returning
none; fuel arguments bound the while loops, and we prove the fuel sufficient
on states reachable from create.
-/

namespace snaperz

/-- A block segment cell of the scalar engine (struct BlockSegment): a block
count and the linked successor, where `none` models the null pointer and
`some j` models a pointer to cell j of the backing array. -/
structure Seg where
  len : Nat
  next : Option Nat
deriving DecidableEq, Repr

namespace fallback

/-- Scalar extender state (struct Extender): the backing array of cells,
as a list indexed 0 .. kLength. -/
structure Extender where
  segments : List Seg
deriving DecidableEq, Repr

/-- Translation of snaperz::create of snaperz_extender_fallback.h: kLength + 1
cells, each of length 1, each linked to the sequentially next cell and the
last cell linked to null. -/
def create (L : Nat) : Extender :=
  ⟨(List.range (L + 1)).map fun i => ⟨1, if i ≠ L then some (i + 1) else none⟩⟩

/-- Outcome of one iteration of the while loop of snaperz::simulate_pulse:
continue at another cell, leave the loop, or undefined behaviour (an
out-of-bounds access or a null-pointer dereference). -/
inductive VisitResult where
  | cont (segs : List Seg) (k : Nat)
  | brk (segs : List Seg)
  | ub
deriving DecidableEq, Repr

/-- One iteration of the while loop of snaperz::simulate_pulse of
snaperz_extender_fallback.h, at the cell with index `curr`. -/
def visit (pl lpl : Nat) (segs : List Seg) (curr : Nat) : VisitResult :=
  match segs[curr]? with
  | none => .ub
  | some c =>
    if 1 < c.len then
      -- pushing case
      let pushLimit := match c.next with
        | some _ => pl
        | none => lpl
      let blocksToPush := min pushLimit (c.len - 1)
      match segs[curr + 1]? with
      | none => .ub
      | some sn =>
        -- splice the sequentially next cell in when it was not linked
        let cNext : Option Nat := if sn.len = 0 then some (curr + 1) else c.next
        let snNext : Option Nat := if sn.len = 0 then c.next else sn.next
        let segs2 := (segs.set curr ⟨c.len - blocksToPush, cNext⟩).set (curr + 1)
          ⟨sn.len + blocksToPush, snNext⟩
        match cNext with
        | none => .ub
        | some k => .cont segs2 k
    else
      -- pulling case
      match c.next with
      | none => .brk segs
      | some nx =>
        match segs[curr + 1]? with
        | none => .ub
        | some sn =>
          if sn.len ≠ 0 then
            let segs2 := (segs.set curr ⟨c.len + sn.len, sn.next⟩).set (curr + 1)
              ⟨0, sn.next⟩
            match sn.next with
            | none => .brk segs2
            | some k => .cont segs2 k
          else
            .cont segs nx

/-- The while loop of snaperz::simulate_pulse of snaperz_extender_fallback.h.
The fuel argument bounds the number of iterations; `none` models undefined
behaviour as well as fuel exhaustion. -/
def pulseLoop (pl lpl : Nat) : Nat → List Seg → Nat → Option (List Seg)
  | 0, _, _ => none
  | fuel + 1, segs, curr =>
    match visit pl lpl segs curr with
    | .ub => none
    | .brk segs2 => some segs2
    | .cont segs2 k => pulseLoop pl lpl fuel segs2 k

/-- The while loop again, instrumented with a ghost trace: the list of pairs
of the visited cell index and the state at the start of that iteration. -/
def pulseLoopLog (pl lpl : Nat) :
    Nat → List Seg → Nat → Option (List Seg × List (Nat × List Seg))
  | 0, _, _ => none
  | fuel + 1, segs, curr =>
    match visit pl lpl segs curr with
    | .ub => none
    | .brk segs2 => some (segs2, [(curr, segs)])
    | .cont segs2 k =>
      (pulseLoopLog pl lpl fuel segs2 k).map fun r => (r.1, (curr, segs) :: r.2)

/-- Translation of snaperz::simulate_pulse of snaperz_extender_fallback.h.
The loop starts at cell 0 and is given fuel equal to the cell count, which we
prove sufficient for all states reachable from create. -/
def simulate_pulse (pl lpl : Nat) (e : Extender) : Option Extender :=
  (pulseLoop pl lpl e.segments.length e.segments 0).map Extender.mk

/-- Translation of the while loop of snaperz::equals of
snaperz_extender_fallback.h: walk both chains in lock step, comparing segment
lengths and relative cell indices. -/
def equalsLoop : Nat → List Seg → List Seg → Option Nat → Option Nat → Option Bool
  | 0, _, _, _, _ => none
  | fuel + 1, lsegs, rsegs, lc, rc =>
    match lc, rc with
    | some i, some j =>
      match lsegs[i]?, rsegs[j]? with
      | some ci, some cj =>
        if ci.len ≠ cj.len then some false
        else if i ≠ j then some false
        else equalsLoop fuel lsegs rsegs ci.next cj.next
      | _, _ => none
    | none, none => some true
    | _, _ => some false

/-- Translation of snaperz::equals of snaperz_extender_fallback.h. -/
def equals (lhs rhs : Extender) : Option Bool :=
  equalsLoop (lhs.segments.length + 1) lhs.segments rhs.segments (some 0) (some 0)

/-- Translation of snaperz::finished of snaperz_extender_fallback.h: the
extender is finished when the first cell has no linked successor. -/
def finished (e : Extender) : Bool :=
  match e.segments[0]? with
  | some c => c.next.isNone
  | none => false

/-- Length of the cell at index i, defaulting to 0 out of bounds. -/
def lenAt (segs : List Seg) (i : Nat) : Nat :=
  ((segs[i]?).map Seg.len).getD 0

/-- Successor pointer of the cell at index i, defaulting to none out of
bounds. -/
def nextAt (segs : List Seg) (i : Nat) : Option Nat :=
  (segs[i]?).bind Seg.next

/-- The list of segment lengths of a state. -/
def lensOf (segs : List Seg) : List Nat :=
  segs.map Seg.len

/-- Sum of all segment lengths. -/
def sumLens (segs : List Seg) : Nat :=
  (lensOf segs).sum

/-- Sum of the first k segment lengths. -/
def prefixLens (segs : List Seg) (k : Nat) : Nat :=
  ((lensOf segs).take k).sum

/-- Iterated simulate_pulse from create: the state after n pulses, or none if
undefined behaviour was encountered.  This is how the driver uses the scalar
engine. -/
def run (pl lpl L : Nat) : Nat → Option Extender
  | 0 => some (create L)
  | n + 1 => (run pl lpl L n).bind (simulate_pulse pl lpl)

/-- True when every entry of the list is zero. -/
def allZero (l : List Nat) : Bool := l.all (· = 0)

/-- The per-pulse transition rule of the specification, as a pure function on
the list of segment lengths, processing the segments in index order: a length
0 segment does nothing; a length 1 segment absorbs the immediately following
segment completely when that is nonzero; a segment of length greater than one
moves min(limit, length - 1) blocks into the immediately following slot,
where the limit is the last push limit for the terminal segment (nothing
nonzero behind it) and the push limit otherwise.  We prove below that on all
reachable states the linked-cell engine computes exactly this function. -/
def apulse (pl lpl : Nat) : List Nat → List Nat
  | [] => []
  | [x] => [x]
  | x :: y :: rest =>
    if x = 0 then x :: apulse pl lpl (y :: rest)
    else if x = 1 then
      if y = 0 then x :: apulse pl lpl (y :: rest)
      else (x + y) :: apulse pl lpl (0 :: rest)
    else
      let limit := if allZero (y :: rest) then lpl else pl
      let b := min limit (x - 1)
      (x - b) :: apulse pl lpl ((y + b) :: rest)

/-- Canonicity of one cell: its successor pointer designates exactly the next
nonzero cell of S (and null when there is none behind it). -/
def CanonAt (S : List Seg) (i : Nat) (c : Seg) : Prop :=
  (∀ j, c.next = some j → i < j ∧ j < S.length ∧ lenAt S j ≠ 0 ∧
    ∀ m, i < m → m < j → lenAt S m = 0) ∧
  (c.next = none → ∀ m, i < m → m < S.length → lenAt S m = 0)

/-- Pointer canonicity: every nonzero cell's successor pointer designates
exactly the next nonzero cell (and null when there is none). -/
def Canon (segs : List Seg) : Prop :=
  ∀ i c, segs[i]? = some c → c.len ≠ 0 → CanonAt segs i c

/-- The well-formedness invariant of scalar extender states: the backing
array has kLength + 1 cells, the lengths sum to kLength + 1, every prefix of
k cells carries at least k blocks, and the successor pointers of nonzero
cells are canonical. -/
structure Inv (L : Nat) (segs : List Seg) : Prop where
  hlen : segs.length = L + 1
  hsum : sumLens segs = L + 1
  hpfx : ∀ k, k ≤ L + 1 → k ≤ prefixLens segs k
  hcanon : Canon segs

theorem length_lensOf (segs : List Seg) : (lensOf segs).length = segs.length := by
  simp [lensOf]

theorem lenAt_eq_getD (segs : List Seg) (i : Nat) :
    lenAt segs i = (lensOf segs).getD i 0 := by
  rw [List.getD_eq_getElem?_getD]
  simp only [lenAt, lensOf, List.getElem?_map]

theorem lensOf_set (segs : List Seg) (i : Nat) (c : Seg) :
    lensOf (segs.set i c) = (lensOf segs).set i c.len := by
  simp [lensOf, List.map_set]

theorem sum_set_nat (l : List Nat) :
    ∀ i v, i < l.length → (l.set i v).sum + l.getD i 0 = l.sum + v := by
  induction l with
  | nil => intro i v h; simp at h
  | cons a t ih =>
    intro i v h
    cases i with
    | zero => simp [List.set]; omega
    | succ n =>
      simp only [List.set, List.sum_cons, List.getD_cons_succ]
      have := ih n v (by simpa using h)
      omega

theorem take_set_nat (l : List Nat) :
    ∀ i v k, k ≤ i → (l.set i v).take k = l.take k := by
  induction l with
  | nil => intro i v k _; simp
  | cons a t ih =>
    intro i v k hk
    cases i with
    | zero => interval_cases k <;> simp
    | succ n =>
      cases k with
      | zero => simp
      | succ m =>
        simp only [List.set, List.take_succ_cons]
        rw [ih n v m (by omega)]

theorem take_sum_set_nat (l : List Nat) :
    ∀ i v k, i < k → i < l.length →
      ((l.set i v).take k).sum + l.getD i 0 = (l.take k).sum + v := by
  induction l with
  | nil => intro i v k _ h; simp at h
  | cons a t ih =>
    intro i v k hik h
    cases i with
    | zero =>
      cases k with
      | zero => omega
      | succ m => simp [List.set]; omega
    | succ n =>
      cases k with
      | zero => omega
      | succ m =>
        simp only [List.set, List.take_succ_cons, List.sum_cons, List.getD_cons_succ]
        have := ih n v m (by omega) (by simpa using h)
        omega

theorem getElem?_upd2 (segs : List Seg) (k : Nat) (c1 c2 : Seg) (j : Nat)
    (hk1 : k + 1 < segs.length) :
    ((segs.set k c1).set (k + 1) c2)[j]? =
      if j = k + 1 then some c2 else if j = k then some c1 else segs[j]? := by
  by_cases h1 : j = k + 1
  · subst h1
    rw [if_pos rfl, List.getElem?_set_self (by simpa using hk1)]
  · rw [if_neg h1, List.getElem?_set_ne (fun h => h1 h.symm)]
    by_cases h2 : j = k
    · subst h2
      rw [if_pos rfl, List.getElem?_set_self (by omega)]
    · rw [if_neg h2, List.getElem?_set_ne (fun h => h2 h.symm)]

theorem lenAt_upd2 (segs : List Seg) (k : Nat) (c1 c2 : Seg) (j : Nat)
    (hk1 : k + 1 < segs.length) :
    lenAt ((segs.set k c1).set (k + 1) c2) j =
      if j = k + 1 then c2.len else if j = k then c1.len else lenAt segs j := by
  simp only [lenAt, getElem?_upd2 segs k c1 c2 j hk1]
  by_cases h1 : j = k + 1 <;> by_cases h2 : j = k <;> simp [h1, h2]

theorem sum_set2_nat (l : List Nat) :
    ∀ k v1 v2, k + 1 < l.length →
      ((l.set k v1).set (k + 1) v2).sum + l.getD k 0 + l.getD (k + 1) 0 =
        l.sum + v1 + v2 := by
  induction l with
  | nil => intro k v1 v2 h; simp at h
  | cons a t ih =>
    intro k v1 v2 h
    cases k with
    | zero =>
      simp only [List.set, List.sum_cons, List.getD_cons_zero, List.getD_cons_succ]
      have := sum_set_nat t 0 v2 (by simpa using h)
      omega
    | succ n =>
      simp only [List.set, List.sum_cons, List.getD_cons_succ]
      have := ih n v1 v2 (by simpa using h)
      omega

theorem sumLens_upd2 (segs : List Seg) (k : Nat) (c1 c2 : Seg)
    (hk1 : k + 1 < segs.length) :
    sumLens ((segs.set k c1).set (k + 1) c2) + lenAt segs k + lenAt segs (k + 1) =
      sumLens segs + c1.len + c2.len := by
  have h := sum_set2_nat (lensOf segs) k c1.len c2.len
    (by rw [length_lensOf]; exact hk1)
  simp only [sumLens, lensOf_set, lenAt_eq_getD]
  exact h

theorem prefixLens_upd2_le (segs : List Seg) (k : Nat) (c1 c2 : Seg) (m : Nat)
    (h : m ≤ k) :
    prefixLens ((segs.set k c1).set (k + 1) c2) m = prefixLens segs m := by
  simp only [prefixLens, lensOf_set]
  rw [take_set_nat _ (k + 1) _ m (by omega), take_set_nat _ k _ m h]

theorem prefixLens_upd2_succ (segs : List Seg) (k : Nat) (c1 c2 : Seg)
    (hk : k < segs.length) :
    prefixLens ((segs.set k c1).set (k + 1) c2) (k + 1) + lenAt segs k =
      prefixLens segs (k + 1) + c1.len := by
  simp only [prefixLens, lensOf_set, lenAt_eq_getD]
  rw [take_set_nat _ (k + 1) _ (k + 1) (by omega)]
  exact take_sum_set_nat _ k c1.len (k + 1) (by omega) (by rw [length_lensOf]; exact hk)

theorem prefixLens_upd2_ge (segs : List Seg) (k : Nat) (c1 c2 : Seg) (m : Nat)
    (hm : k + 2 ≤ m) (hk1 : k + 1 < segs.length) :
    prefixLens ((segs.set k c1).set (k + 1) c2) m + lenAt segs k + lenAt segs (k + 1) =
      prefixLens segs m + c1.len + c2.len := by
  simp only [prefixLens, lensOf_set, lenAt_eq_getD]
  have hlen1 : k + 1 < ((lensOf segs).set k c1.len).length := by
    rw [List.length_set, length_lensOf]; exact hk1
  have h1 := take_sum_set_nat ((lensOf segs).set k c1.len) (k + 1) c2.len m
    (by omega) hlen1
  have h2 := take_sum_set_nat (lensOf segs) k c1.len m (by omega)
    (by rw [length_lensOf]; omega)
  have hgd : ((lensOf segs).set k c1.len).getD (k + 1) 0 = (lensOf segs).getD (k + 1) 0 := by
    simp only [List.getD_eq_getElem?_getD, List.getElem?_set_ne (by omega : k ≠ k + 1)]
  rw [hgd] at h1
  omega

theorem lenAt_pos_of_inv_zero {L : Nat} {segs : List Seg} (hinv : Inv L segs) :
    lenAt segs 0 ≠ 0 := by
  have h := hinv.hpfx 1 (by omega)
  simp only [prefixLens] at h
  intro h0
  rw [lenAt_eq_getD] at h0
  have hl : 0 < (lensOf segs).length := by rw [length_lensOf, hinv.hlen]; omega
  match hme : lensOf segs, hl with
  | x :: t, _ =>
    rw [hme] at h h0
    simp at h h0
    omega

/-- The state returned by create satisfies the invariant. -/
theorem inv_create (L : Nat) : Inv L (create L).segments := by
  have hget : ∀ i, i < L + 1 → (create L).segments[i]? =
      some ⟨1, if i ≠ L then some (i + 1) else none⟩ := by
    intro i hi
    simp [create, List.getElem?_map, List.getElem?_range, hi]
  have hlen : (create L).segments.length = L + 1 := by simp [create]
  have hlens : lensOf (create L).segments = List.replicate (L + 1) 1 := by
    simp only [lensOf, create, List.map_map]
    apply List.ext_getElem
    · simp
    · intro i h1 h2
      simp
  refine ⟨hlen, ?_, ?_, ?_⟩
  · simp [sumLens, hlens]
  · intro k hk
    simp only [prefixLens, hlens, List.take_replicate, List.sum_replicate]
    simp [min_eq_left hk]
  · intro i c hc hnz
    have hi : i < L + 1 := by
      by_contra h
      rw [List.getElem?_eq_none (by omega : (create L).segments.length ≤ i)] at hc
      exact Option.noConfusion hc
    rw [hget i hi] at hc
    have hceq : c = ⟨1, if i ≠ L then some (i + 1) else none⟩ := by
      exact (Option.some_inj.mp hc).symm
    subst hceq
    constructor
    · intro j hj
      by_cases hiL : i ≠ L
      · simp only [if_pos hiL] at hj
        have hji : j = i + 1 := (Option.some_inj.mp hj).symm
        subst hji
        refine ⟨by omega, by omega, ?_, by omega⟩
        rw [lenAt_eq_getD, hlens, List.getD_eq_getElem?_getD,
          List.getElem?_replicate]
        simp only [if_pos (by omega : i + 1 < L + 1)]
        simp
      · simp only [if_neg hiL] at hj
        exact Option.noConfusion hj
    · intro hnone m him hm
      by_cases hiL : i ≠ L
      · simp only [if_pos hiL] at hnone
        exact Option.noConfusion hnone
      · rw [hlen] at hm
        omega

theorem length_of_getElem?_eq_some {α : Type} {l : List α} {i : Nat} {a : α}
    (h : l[i]? = some a) : i < l.length := by
  by_contra hcon
  rw [List.getElem?_eq_none (by omega)] at h
  exact Option.noConfusion h

/-- Each iteration of the pulse loop preserves the total number of blocks:
it only moves blocks between two cells.  No well-formedness assumption is
needed. -/
theorem visit_sum (pl lpl : Nat) (segs : List Seg) (curr : Nat) (s2 : List Seg)
    (h : (∃ k, visit pl lpl segs curr = .cont s2 k) ∨
      visit pl lpl segs curr = .brk s2) :
    sumLens s2 = sumLens segs := by
  rcases hc : segs[curr]? with _ | c
  · rcases h with ⟨k, h⟩ | h <;>
      (simp only [visit, hc] at h; exact VisitResult.noConfusion h)
  · by_cases h1 : 1 < c.len
    · -- pushing case
      rcases hsn : segs[curr + 1]? with _ | sn
      · rcases h with ⟨k, h⟩ | h <;>
          (simp only [visit, hc, hsn, if_pos h1] at h; exact VisitResult.noConfusion h)
      · have hk1 : curr + 1 < segs.length := length_of_getElem?_eq_some hsn
        have hlc : lenAt segs curr = c.len := by simp [lenAt, hc]
        have hlsn : lenAt segs (curr + 1) = sn.len := by simp [lenAt, hsn]
        have hble : min (match c.next with | some _ => pl | none => lpl) (c.len - 1)
            ≤ c.len - 1 := min_le_right _ _
        have hs2 : s2 = (segs.set curr
            ⟨c.len - min (match c.next with | some _ => pl | none => lpl) (c.len - 1),
              if sn.len = 0 then some (curr + 1) else c.next⟩).set (curr + 1)
            ⟨sn.len + min (match c.next with | some _ => pl | none => lpl) (c.len - 1),
              if sn.len = 0 then c.next else sn.next⟩ := by
          rcases h with ⟨k, h⟩ | h <;>
            simp only [visit, hc, hsn, if_pos h1] at h <;>
            rcases hcne : (if sn.len = 0 then some (curr + 1) else c.next : Option Nat)
              with _ | k2 <;>
            simp only [hcne] at h <;>
            first
              | exact VisitResult.noConfusion h
              | (injection h with h2 h3; exact h2.symm)
              | (injection h with h2; exact h2.symm)
        rw [hs2]
        have := sumLens_upd2 segs curr
          ⟨c.len - min (match c.next with | some _ => pl | none => lpl) (c.len - 1),
            if sn.len = 0 then some (curr + 1) else c.next⟩
          ⟨sn.len + min (match c.next with | some _ => pl | none => lpl) (c.len - 1),
            if sn.len = 0 then c.next else sn.next⟩ hk1
        rw [hlc, hlsn] at this
        dsimp only at this ⊢
        omega
    · -- pulling case
      rcases hnx : c.next with _ | nx
      · rcases h with ⟨k, h⟩ | h
        · simp only [visit, hc, hnx, if_neg h1] at h; exact VisitResult.noConfusion h
        · simp only [visit, hc, hnx, if_neg h1] at h
          injection h with h2
          rw [← h2]
      · rcases hsn : segs[curr + 1]? with _ | sn
        · rcases h with ⟨k, h⟩ | h <;>
            (simp only [visit, hc, hnx, hsn, if_neg h1] at h
             exact VisitResult.noConfusion h)
        · have hk1 : curr + 1 < segs.length := length_of_getElem?_eq_some hsn
          have hlc : lenAt segs curr = c.len := by simp [lenAt, hc]
          have hlsn : lenAt segs (curr + 1) = sn.len := by simp [lenAt, hsn]
          by_cases hz : sn.len ≠ 0
          · have hs2 : s2 = (segs.set curr ⟨c.len + sn.len, sn.next⟩).set (curr + 1)
                ⟨0, sn.next⟩ := by
              rcases h with ⟨k, h⟩ | h <;>
                simp only [visit, hc, hnx, hsn, if_neg h1, if_pos hz] at h <;>
                rcases hsnn : sn.next with _ | k2 <;> simp only [hsnn] at h <;>
                first
                  | exact VisitResult.noConfusion h
                  | (injection h with h2 h3; exact h2.symm)
                  | (injection h with h2; exact h2.symm)
            rw [hs2]
            have := sumLens_upd2 segs curr ⟨c.len + sn.len, sn.next⟩ ⟨0, sn.next⟩ hk1
            rw [hlc, hlsn] at this
            dsimp only at this ⊢
            omega
          · have hs2 : s2 = segs := by
              rcases h with ⟨k, h⟩ | h <;>
                simp only [visit, hc, hnx, hsn, if_neg h1, if_neg hz] at h
              · injection h with h2 h3; exact h2.symm
              · exact VisitResult.noConfusion h
            rw [hs2]

theorem take_succ_sum (l : List Nat) :
    ∀ k, (l.take (k + 1)).sum = (l.take k).sum + l.getD k 0 := by
  induction l with
  | nil => intro k; simp
  | cons a t ih =>
    intro k
    cases k with
    | zero => simp
    | succ n =>
      simp only [List.take_succ_cons, List.sum_cons, List.getD_cons_succ, ih n]
      omega

theorem take_sum_le (l : List Nat) (m : Nat) : (l.take m).sum ≤ l.sum := by
  conv_rhs => rw [← List.take_append_drop m l]
  rw [List.sum_append]
  omega

theorem prefixLens_succ (segs : List Seg) (k : Nat) :
    prefixLens segs (k + 1) = prefixLens segs k + lenAt segs k := by
  simp only [prefixLens, lenAt_eq_getD]
  exact take_succ_sum _ k

theorem prefixLens_le_sum (segs : List Seg) (m : Nat) :
    prefixLens segs m ≤ sumLens segs := take_sum_le _ m

theorem getD_lensOf_drop (l : List Nat) (i j : Nat) :
    (l.drop i).getD j 0 = l.getD (i + j) 0 := by
  simp only [List.getD_eq_getElem?_getD, List.getElem?_drop]

theorem drop_cons_getD (l : List Nat) (k : Nat) (h : k < l.length) :
    l.drop k = l.getD k 0 :: l.drop (k + 1) := by
  rw [List.drop_eq_getElem_cons h]
  congr 1
  simp [List.getD_eq_getElem?_getD, List.getElem?_eq_getElem h]

/-- Skipping a run of zeros: the abstract pulse leaves leading zeros intact
and proceeds behind them. -/
theorem apulse_zeros_skip (pl lpl : Nat) :
    ∀ t l, (∀ j, j < t → l.getD j 0 = 0) → t ≤ l.length →
      apulse pl lpl l = l.take t ++ apulse pl lpl (l.drop t) := by
  intro t
  induction t with
  | zero => intro l _ _; simp
  | succ n ih =>
    intro l hz hlen
    match l, hlen with
    | x :: l2, hlen2 =>
      have hx : x = 0 := hz 0 (by omega)
      subst hx
      have htail : apulse pl lpl (0 :: l2) = 0 :: apulse pl lpl l2 := by
        match l2 with
        | [] => simp [apulse]
        | y :: rest => simp [apulse]
      rw [htail, List.take_succ_cons, List.drop_succ_cons, List.cons_append]
      congr 1
      exact ih l2 (fun j hj => hz (j + 1) (by omega)) (by simpa using hlen2)

/-- The abstract pulse is the identity on an all-zero list. -/
theorem apulse_allZero (pl lpl : Nat) (l : List Nat)
    (hz : ∀ j, j < l.length → l.getD j 0 = 0) : apulse pl lpl l = l := by
  rw [apulse_zeros_skip pl lpl l.length l (fun j hj => hz j hj) le_rfl]
  simp [apulse]

theorem take_lensOf_upd2 (segs : List Seg) (k : Nat) (c1 c2 : Seg) (m : Nat)
    (h : m ≤ k) :
    (lensOf ((segs.set k c1).set (k + 1) c2)).take m = (lensOf segs).take m := by
  simp only [lensOf_set]
  rw [take_set_nat _ (k + 1) _ m (by omega), take_set_nat _ k _ m h]

theorem drop_lensOf_upd2 (segs : List Seg) (k : Nat) (c1 c2 : Seg) (m : Nat)
    (h : k + 2 ≤ m) :
    (lensOf ((segs.set k c1).set (k + 1) c2)).drop m = (lensOf segs).drop m := by
  simp only [lensOf_set]
  apply List.ext_getElem?
  intro j
  simp only [List.getElem?_drop, List.getElem?_set_ne (by omega : k + 1 ≠ m + j),
    List.getElem?_set_ne (by omega : k ≠ m + j)]

theorem lenAt_some {segs : List Seg} {i : Nat} {c : Seg} (hc : segs[i]? = some c) :
    lenAt segs i = c.len := by simp [lenAt, hc]

theorem allZero_drop (segs : List Seg) (i : Nat) :
    allZero ((lensOf segs).drop i) = true ↔
      ∀ m, i ≤ m → m < segs.length → lenAt segs m = 0 := by
  rw [allZero, List.all_eq_true]
  constructor
  · intro h m him hm
    have hml : m < (lensOf segs).length := by rw [length_lensOf]; exact hm
    have hmem : (lensOf segs).getD m 0 ∈ (lensOf segs).drop i := by
      have heq : ((lensOf segs).drop i)[m - i]? = some ((lensOf segs).getD m 0) := by
        rw [List.getElem?_drop]
        have him2 : i + (m - i) = m := by omega
        rw [him2, List.getD_eq_getElem?_getD, List.getElem?_eq_getElem hml]
        rfl
      exact List.getElem?_mem heq
    have := h _ hmem
    rw [lenAt_eq_getD]
    exact of_decide_eq_true this
  · intro h x hx
    obtain ⟨n, hn⟩ := List.getElem?_of_mem hx
    rw [List.getElem?_drop] at hn
    have hlt : i + n < segs.length := by
      rw [← length_lensOf]
      exact length_of_getElem?_eq_some hn
    have : lenAt segs (i + n) = x := by
      rw [lenAt_eq_getD, List.getD_eq_getElem?_getD, hn]
      rfl
    have hz := h (i + n) (by omega) hlt
    simp [this ▸ hz]

theorem visit_eq_push (pl lpl : Nat) (segs : List Seg) (k : Nat) (c sn : Seg)
    (hc : segs[k]? = some c) (h1 : 1 < c.len) (hsn : segs[k + 1]? = some sn) :
    visit pl lpl segs k =
      match (if sn.len = 0 then some (k + 1) else c.next : Option Nat) with
      | none => .ub
      | some k2 => .cont ((segs.set k
          ⟨c.len - min (match c.next with | some _ => pl | none => lpl) (c.len - 1),
            if sn.len = 0 then some (k + 1) else c.next⟩).set (k + 1)
          ⟨sn.len + min (match c.next with | some _ => pl | none => lpl) (c.len - 1),
            if sn.len = 0 then c.next else sn.next⟩) k2 := by
  simp only [visit, hc, hsn, if_pos h1]

theorem visit_eq_pull_none (pl lpl : Nat) (segs : List Seg) (k : Nat) (c : Seg)
    (hc : segs[k]? = some c) (h1 : ¬ 1 < c.len) (hnx : c.next = none) :
    visit pl lpl segs k = .brk segs := by
  simp only [visit, hc, hnx, if_neg h1]

theorem visit_eq_pull_some (pl lpl : Nat) (segs : List Seg) (k : Nat) (c sn : Seg)
    (nx : Nat) (hc : segs[k]? = some c) (h1 : ¬ 1 < c.len) (hnx : c.next = some nx)
    (hsn : segs[k + 1]? = some sn) :
    visit pl lpl segs k =
      if sn.len ≠ 0 then
        match sn.next with
        | none => .brk ((segs.set k ⟨c.len + sn.len, sn.next⟩).set (k + 1) ⟨0, sn.next⟩)
        | some k3 =>
          .cont ((segs.set k ⟨c.len + sn.len, sn.next⟩).set (k + 1) ⟨0, sn.next⟩) k3
      else .cont segs nx := by
  simp only [visit, hc, hnx, hsn, if_neg h1]

theorem length_upd2 (segs : List Seg) (k : Nat) (c1 c2 : Seg) :
    ((segs.set k c1).set (k + 1) c2).length = segs.length := by
  simp

/-- Canonicity of a state after updating the two cells k and k + 1: the cells
below k and above k + 1 stay canonical provided cell k stays nonzero, and the
two updated cells are canonical by assumption. -/
theorem upd2_canon (segs : List Seg) (k : Nat) (c1 c2 : Seg)
    (hk1 : k + 1 < segs.length) (hcanon : Canon segs)
    (hknz : lenAt segs k ≠ 0) (hc1nz : c1.len ≠ 0)
    (hC1 : CanonAt ((segs.set k c1).set (k + 1) c2) k c1)
    (hC2 : c2.len ≠ 0 → CanonAt ((segs.set k c1).set (k + 1) c2) (k + 1) c2) :
    Canon ((segs.set k c1).set (k + 1) c2) := by
  intro i c hci hcnz
  set S := (segs.set k c1).set (k + 1) c2 with hS
  have hgi := getElem?_upd2 segs k c1 c2 i hk1
  rw [← hS] at hgi
  by_cases hik1 : i = k + 1
  · subst hik1
    rw [if_pos rfl] at hgi
    have : c = c2 := by rw [hci] at hgi; exact Option.some_inj.mp hgi
    subst this
    exact hC2 hcnz
  · by_cases hik : i = k
    · subst hik
      rw [if_neg hik1, if_pos rfl] at hgi
      have : c = c1 := by rw [hci] at hgi; exact Option.some_inj.mp hgi
      subst this
      exact hC1
    · rw [if_neg hik1, if_neg hik] at hgi
      have hcs : segs[i]? = some c := by rw [← hgi, hci]
      have hlenS : S.length = segs.length := length_upd2 segs k c1 c2
      have hlenAtS : ∀ m, m ≠ k → m ≠ k + 1 → lenAt S m = lenAt segs m := by
        intro m hm1 hm2
        rw [hS, lenAt_upd2 segs k c1 c2 m hk1, if_neg hm2, if_neg hm1]
      have hlenAtk : lenAt S k = c1.len := by
        rw [hS, lenAt_upd2 segs k c1 c2 k hk1, if_neg (by omega), if_pos rfl]
      have hold := hcanon i c hcs hcnz
      rcases Nat.lt_or_ge i k with hilt | hige
      · -- cells strictly below k
        constructor
        · intro j hj
          obtain ⟨hij, hjl, hjnz, hbet⟩ := hold.1 j hj
          have hjk : j ≤ k := by
            by_contra hcon
            exact hknz (hbet k hilt (by omega))
          refine ⟨hij, by omega, ?_, ?_⟩
          · by_cases hjk2 : j = k
            · rw [hjk2, hlenAtk]; exact hc1nz
            · rw [hlenAtS j hjk2 (by omega)]; exact hjnz
          · intro m him hmj
            rw [hlenAtS m (by omega) (by omega)]
            exact hbet m him hmj
        · intro hnone
          exact absurd (hold.2 hnone k hilt (by omega)) hknz
      · -- cells strictly above k + 1
        have hik2 : k + 1 < i := by omega
        constructor
        · intro j hj
          obtain ⟨hij, hjl, hjnz, hbet⟩ := hold.1 j hj
          refine ⟨hij, by omega, ?_, ?_⟩
          · rw [hlenAtS j (by omega) (by omega)]; exact hjnz
          · intro m him hmj
            rw [hlenAtS m (by omega) (by omega)]
            exact hbet m him hmj
        · intro hnone m him hml
          rw [hlenAtS m (by omega) (by omega)]
          exact hold.2 hnone m him (by omega)

theorem apulse_zero_cons (pl lpl : Nat) (t : List Nat) :
    apulse pl lpl (0 :: t) = 0 :: apulse pl lpl t := by
  match t with
  | [] => simp [apulse]
  | y :: r => simp [apulse]

theorem apulse_push_eq (pl lpl x y : Nat) (rest : List Nat) (hx0 : ¬ x = 0)
    (hx1 : ¬ x = 1) :
    apulse pl lpl (x :: y :: rest) =
      (x - min (if allZero (y :: rest) then lpl else pl) (x - 1)) ::
        apulse pl lpl ((y + min (if allZero (y :: rest) then lpl else pl) (x - 1))
          :: rest) := by
  simp only [apulse, if_neg hx0, if_neg hx1]

theorem apulse_pull_eq (pl lpl y : Nat) (rest : List Nat) (hy : ¬ y = 0) :
    apulse pl lpl (1 :: y :: rest) = (1 + y) :: apulse pl lpl (0 :: rest) := by
  simp only [apulse, if_neg (by omega : ¬ (1 : Nat) = 0), if_pos rfl, if_true, if_neg hy]

theorem apulse_skip_eq (pl lpl : Nat) (rest : List Nat) :
    apulse pl lpl (1 :: 0 :: rest) = 1 :: apulse pl lpl (0 :: rest) := by
  simp only [apulse, if_neg (by omega : ¬ (1 : Nat) = 0), if_pos rfl, if_true]

theorem drop_lensOf_cons (segs : List Seg) (k : Nat) (c : Seg)
    (hc : segs[k]? = some c) :
    (lensOf segs).drop k = c.len :: (lensOf segs).drop (k + 1) := by
  have hkl : k < segs.length := length_of_getElem?_eq_some hc
  rw [drop_cons_getD _ k (by rw [length_lensOf]; exact hkl), ← lenAt_eq_getD,
    lenAt_some hc]

theorem drop_lensOf_upd2_eq (segs : List Seg) (k : Nat) (c1 c2 : Seg)
    (hk1 : k + 1 < segs.length) :
    (lensOf ((segs.set k c1).set (k + 1) c2)).drop k =
      c1.len :: c2.len :: (lensOf segs).drop (k + 2) := by
  have hlu : ((segs.set k c1).set (k + 1) c2).length = segs.length :=
    length_upd2 segs k c1 c2
  rw [drop_cons_getD _ k (by rw [length_lensOf, hlu]; omega),
    drop_cons_getD _ (k + 1) (by rw [length_lensOf, hlu]; omega),
    ← lenAt_eq_getD, ← lenAt_eq_getD,
    lenAt_upd2 segs k c1 c2 k hk1, lenAt_upd2 segs k c1 c2 (k + 1) hk1,
    drop_lensOf_upd2 segs k c1 c2 (k + 2) le_rfl]
  rw [if_neg (by omega : ¬ k = k + 1), if_pos rfl, if_pos rfl]

theorem drop_lensOf_upd2_succ (segs : List Seg) (k : Nat) (c1 c2 : Seg)
    (hk1 : k + 1 < segs.length) :
    (lensOf ((segs.set k c1).set (k + 1) c2)).drop (k + 1) =
      c2.len :: (lensOf segs).drop (k + 2) := by
  have hlu : ((segs.set k c1).set (k + 1) c2).length = segs.length :=
    length_upd2 segs k c1 c2
  rw [drop_cons_getD _ (k + 1) (by rw [length_lensOf, hlu]; omega),
    ← lenAt_eq_getD, lenAt_upd2 segs k c1 c2 (k + 1) hk1,
    drop_lensOf_upd2 segs k c1 c2 (k + 2) le_rfl, if_pos rfl]

/-- The property claimed of one pushing iteration of the loop: a visited cell
of length greater than one moves exactly min(limit, length - 1) blocks into
the sequentially next array slot, where the limit is the last push limit for
a cell without linked successor and the push limit otherwise; the slot is
spliced into the chain right behind the cell when it held zero; the source
cell keeps at least one block; and no other cell changes length. -/
def PushStep (pl lpl : Nat) (s : List Seg) (k : Nat) (sAfter : List Seg) : Prop :=
  ∀ c, s[k]? = some c → 1 < c.len →
    ∃ sn, s[k + 1]? = some sn ∧
      lenAt sAfter k = c.len - min (if c.next = none then lpl else pl) (c.len - 1) ∧
      1 ≤ lenAt sAfter k ∧
      lenAt sAfter (k + 1) = sn.len + min (if c.next = none then lpl else pl) (c.len - 1) ∧
      (∀ j, j ≠ k → j ≠ k + 1 → lenAt sAfter j = lenAt s j) ∧
      (sn.len = 0 → nextAt sAfter k = some (k + 1) ∧ nextAt sAfter (k + 1) = c.next)

/-- The pushing iteration: under the invariant, a visited cell of length
greater than one always continues at the sequentially next cell, the
invariant is preserved, and the lengths change exactly as the abstract pulse
prescribes. -/
theorem visit_spec_push (pl lpl L : Nat) (hpl : 1 ≤ pl) (hlpl : pl ≤ lpl)
    (segs : List Seg) (k : Nat) (hinv : Inv L segs) (hk : k < L + 1)
    (c : Seg) (hc : segs[k]? = some c) (h1 : 1 < c.len) :
    ∃ segs2, visit pl lpl segs k = .cont segs2 (k + 1) ∧ Inv L segs2 ∧
      k + 1 < L + 1 ∧ lenAt segs2 (k + 1) ≠ 0 ∧
      (lensOf segs2).take k = (lensOf segs).take k ∧
      (apulse pl lpl ((lensOf segs).drop k) =
        ((lensOf segs2).drop k).take 1 ++ apulse pl lpl ((lensOf segs2).drop (k + 1))) ∧
      PushStep pl lpl segs k segs2 := by
  have hlen := hinv.hlen
  have hkl : k < segs.length := by rw [hlen]; exact hk
  have hlck : lenAt segs k = c.len := lenAt_some hc
  have hcnz : c.len ≠ 0 := by omega
  have hk1L : k + 1 < L + 1 := by
    have e1 := prefixLens_succ segs k
    have e2 := prefixLens_le_sum segs (k + 1)
    have e3 := hinv.hpfx k (by omega)
    rw [hinv.hsum] at e2
    rw [hlck] at e1
    omega
  have hk1l : k + 1 < segs.length := by rw [hlen]; exact hk1L
  obtain ⟨sn, hsn⟩ : ∃ sn, segs[k + 1]? = some sn :=
    ⟨_, List.getElem?_eq_getElem hk1l⟩
  have hlsn : lenAt segs (k + 1) = sn.len := lenAt_some hsn
  have hcanonK := hinv.hcanon k c hc hcnz
  set b := min (match c.next with | some _ => pl | none => lpl) (c.len - 1)
    with hbdef
  have hble : b ≤ c.len - 1 := min_le_right _ _
  have hlim1 : 1 ≤ (match c.next with | some _ => pl | none => lpl) := by
    cases c.next
    · exact le_trans hpl hlpl
    · exact hpl
  have hb1 : 1 ≤ b := le_min hlim1 (by omega)
  have hlimeq : (match c.next with | some _ => pl | none => lpl) =
      (if allZero ((lensOf segs).drop (k + 1)) then lpl else pl) := by
    cases hnx : c.next with
    | none =>
      have hz := hcanonK.2 hnx
      have hallz : allZero ((lensOf segs).drop (k + 1)) = true :=
        (allZero_drop segs (k + 1)).mpr (fun m hm1 hm2 => hz m (by omega) hm2)
      simp [hallz]
    | some j =>
      obtain ⟨hkj, hjL, hjnz, _⟩ := hcanonK.1 j hnx
      have hallz : allZero ((lensOf segs).drop (k + 1)) = false := by
        rcases hall : allZero ((lensOf segs).drop (k + 1)) with _ | _
        · rfl
        · exact absurd ((allZero_drop segs (k + 1)).mp hall j (by omega) hjL) hjnz
      simp [hallz]
  have hdropS : (lensOf segs).drop k = c.len :: sn.len :: (lensOf segs).drop (k + 2) := by
    rw [drop_lensOf_cons segs k c hc, drop_lensOf_cons segs (k + 1) sn hsn]
  have hdropS1 : (lensOf segs).drop (k + 1) = sn.len :: (lensOf segs).drop (k + 2) :=
    drop_lensOf_cons segs (k + 1) sn hsn
  -- in both subcases the cell k is relinked to the sequentially next cell
  by_cases hz : sn.len = 0
  · -- splice subcase: the next cell was unlinked
    refine ⟨(segs.set k ⟨c.len - b, some (k + 1)⟩).set (k + 1)
      ⟨sn.len + b, c.next⟩, ?_, ?_, hk1L, ?_, ?_, ?_, ?_⟩
    · rw [visit_eq_push pl lpl segs k c sn hc h1 hsn, ← hbdef, if_pos hz, if_pos hz]
    · refine ⟨by rw [length_upd2]; exact hlen, ?_, ?_, ?_⟩
      · have hs := sumLens_upd2 segs k ⟨c.len - b, some (k + 1)⟩
          ⟨sn.len + b, c.next⟩ hk1l
        rw [hlck, hlsn] at hs
        dsimp only at hs
        rw [← hinv.hsum]
        omega
      · intro m hm
        rcases Nat.lt_or_ge m (k + 1) with hmk | hmk
        · rw [prefixLens_upd2_le segs k _ _ m (by omega)]
          exact hinv.hpfx m hm
        · rcases Nat.eq_or_lt_of_le hmk with hmk1 | hmk1
          · subst hmk1
            have hp := prefixLens_upd2_succ segs k ⟨c.len - b, some (k + 1)⟩
              ⟨sn.len + b, c.next⟩ hkl
            rw [hlck] at hp
            dsimp only at hp
            have he := prefixLens_succ segs k
            rw [hlck] at he
            have := hinv.hpfx k (by omega)
            omega
          · have hp := prefixLens_upd2_ge segs k ⟨c.len - b, some (k + 1)⟩
              ⟨sn.len + b, c.next⟩ m (by omega) hk1l
            rw [hlck, hlsn] at hp
            dsimp only at hp
            have := hinv.hpfx m hm
            omega
      · apply upd2_canon segs k _ _ hk1l hinv.hcanon (by rw [hlck]; exact hcnz)
          (by dsimp only; omega)
        · constructor
          · intro j hj
            have hjk1 : j = k + 1 := by
              dsimp only at hj
              exact (Option.some_inj.mp hj).symm
            subst hjk1
            refine ⟨by omega, by rw [length_upd2]; exact hk1l, ?_, by omega⟩
            rw [lenAt_upd2 segs k _ _ (k + 1) hk1l, if_pos rfl]
            dsimp only
            omega
          · intro hno
            exact Option.noConfusion hno
        · intro hc2nz
          dsimp only
          constructor
          · intro j hj
            dsimp only at hj
            obtain ⟨hkj, hjL, hjnz, hbet⟩ := hcanonK.1 j hj
            have hjk1 : k + 1 < j := by
              rcases Nat.lt_or_ge (k + 1) j with h | h
              · exact h
              · exfalso
                have hj1 : j = k + 1 := by omega
                subst hj1
                rw [hlsn] at hjnz
                exact hjnz hz
            refine ⟨hjk1, by rw [length_upd2]; exact hjL, ?_, ?_⟩
            · rw [lenAt_upd2 segs k _ _ j hk1l, if_neg (by omega), if_neg (by omega)]
              exact hjnz
            · intro m hm1 hm2
              rw [lenAt_upd2 segs k _ _ m hk1l, if_neg (by omega), if_neg (by omega)]
              exact hbet m (by omega) hm2
          · intro hno m hm1 hm2
            dsimp only at hno
            rw [length_upd2] at hm2
            rw [lenAt_upd2 segs k _ _ m hk1l, if_neg (by omega), if_neg (by omega)]
            exact hcanonK.2 hno m (by omega) hm2
    · rw [lenAt_upd2 segs k _ _ (k + 1) hk1l, if_pos rfl]
      dsimp only
      omega
    · exact take_lensOf_upd2 segs k _ _ k le_rfl
    · rw [hdropS, apulse_push_eq pl lpl c.len sn.len _ (by omega) (by omega)]
      rw [drop_lensOf_upd2_eq segs k _ _ hk1l, drop_lensOf_upd2_succ segs k _ _ hk1l]
      dsimp only
      rw [← hdropS1, ← hlimeq, ← hbdef]
      rfl
    · intro c2 hc2 h12
      rw [hc] at hc2
      obtain rfl : c = c2 := Option.some_inj.mp hc2
      have hmb : min (if c.next = none then lpl else pl) (c.len - 1) = b := by
        rw [hbdef]; cases c.next <;> rfl
      refine ⟨sn, hsn, ?_, ?_, ?_, ?_, ?_⟩
      · rw [hmb, lenAt_upd2 segs k _ _ k hk1l, if_neg (by omega), if_pos rfl]
      · rw [lenAt_upd2 segs k _ _ k hk1l, if_neg (by omega), if_pos rfl]
        dsimp only
        omega
      · rw [hmb, lenAt_upd2 segs k _ _ (k + 1) hk1l, if_pos rfl]
      · intro j hj1 hj2
        rw [lenAt_upd2 segs k _ _ j hk1l, if_neg hj2, if_neg hj1]
      · intro h0
        constructor
        · simp only [nextAt, getElem?_upd2 segs k _ _ k hk1l,
            if_neg (by omega : ¬ k = k + 1), if_pos rfl]
          rfl
        · simp only [nextAt, getElem?_upd2 segs k _ _ (k + 1) hk1l, if_pos rfl]
          rfl
  · -- no splice: the next cell was already linked, and canonicity forces the
    -- successor pointer of cell k to designate it
    have hnxeq : c.next = some (k + 1) := by
      cases hnx : c.next with
      | none => exact absurd (hcanonK.2 hnx (k + 1) (by omega) hk1l) (by rw [hlsn]; exact hz)
      | some j =>
        obtain ⟨hkj, hjL, hjnz, hbet⟩ := hcanonK.1 j hnx
        rcases Nat.lt_or_ge (k + 1) j with h | h
        · exact absurd (hbet (k + 1) (by omega) h) (by rw [hlsn]; exact hz)
        · have : j = k + 1 := by omega
          rw [this]
    refine ⟨(segs.set k ⟨c.len - b, some (k + 1)⟩).set (k + 1)
      ⟨sn.len + b, sn.next⟩, ?_, ?_, hk1L, ?_, ?_, ?_, ?_⟩
    · rw [visit_eq_push pl lpl segs k c sn hc h1 hsn, ← hbdef, if_neg hz, if_neg hz,
        hnxeq]
    · refine ⟨by rw [length_upd2]; exact hlen, ?_, ?_, ?_⟩
      · have hs := sumLens_upd2 segs k ⟨c.len - b, some (k + 1)⟩
          ⟨sn.len + b, sn.next⟩ hk1l
        rw [hlck, hlsn] at hs
        dsimp only at hs
        rw [← hinv.hsum]
        omega
      · intro m hm
        rcases Nat.lt_or_ge m (k + 1) with hmk | hmk
        · rw [prefixLens_upd2_le segs k _ _ m (by omega)]
          exact hinv.hpfx m hm
        · rcases Nat.eq_or_lt_of_le hmk with hmk1 | hmk1
          · subst hmk1
            have hp := prefixLens_upd2_succ segs k ⟨c.len - b, some (k + 1)⟩
              ⟨sn.len + b, sn.next⟩ hkl
            rw [hlck] at hp
            dsimp only at hp
            have he := prefixLens_succ segs k
            rw [hlck] at he
            have := hinv.hpfx k (by omega)
            omega
          · have hp := prefixLens_upd2_ge segs k ⟨c.len - b, some (k + 1)⟩
              ⟨sn.len + b, sn.next⟩ m (by omega) hk1l
            rw [hlck, hlsn] at hp
            dsimp only at hp
            have := hinv.hpfx m hm
            omega
      · have hcanonSn := hinv.hcanon (k + 1) sn hsn hz
        apply upd2_canon segs k _ _ hk1l hinv.hcanon (by rw [hlck]; exact hcnz)
          (by dsimp only; omega)
        · constructor
          · intro j hj
            have hjk1 : j = k + 1 := by
              dsimp only at hj
              exact (Option.some_inj.mp hj).symm
            subst hjk1
            refine ⟨by omega, by rw [length_upd2]; exact hk1l, ?_, by omega⟩
            rw [lenAt_upd2 segs k _ _ (k + 1) hk1l, if_pos rfl]
            dsimp only
            omega
          · intro hno
            exact Option.noConfusion hno
        · intro hc2nz
          dsimp only
          constructor
          · intro j hj
            dsimp only at hj
            obtain ⟨hkj, hjL, hjnz, hbet⟩ := hcanonSn.1 j hj
            refine ⟨hkj, by rw [length_upd2]; exact hjL, ?_, ?_⟩
            · rw [lenAt_upd2 segs k _ _ j hk1l, if_neg (by omega), if_neg (by omega)]
              exact hjnz
            · intro m hm1 hm2
              rw [lenAt_upd2 segs k _ _ m hk1l, if_neg (by omega), if_neg (by omega)]
              exact hbet m hm1 hm2
          · intro hno m hm1 hm2
            rw [length_upd2] at hm2
            rw [lenAt_upd2 segs k _ _ m hk1l, if_neg (by omega), if_neg (by omega)]
            exact hcanonSn.2 hno m hm1 hm2
    · rw [lenAt_upd2 segs k _ _ (k + 1) hk1l, if_pos rfl]
      dsimp only
      omega
    · exact take_lensOf_upd2 segs k _ _ k le_rfl
    · rw [hdropS, apulse_push_eq pl lpl c.len sn.len _ (by omega) (by omega)]
      rw [drop_lensOf_upd2_eq segs k _ _ hk1l, drop_lensOf_upd2_succ segs k _ _ hk1l]
      dsimp only
      rw [← hdropS1, ← hlimeq, ← hbdef]
      rfl
    · intro c2 hc2 h12
      rw [hc] at hc2
      obtain rfl : c = c2 := Option.some_inj.mp hc2
      have hmb : min (if c.next = none then lpl else pl) (c.len - 1) = b := by
        rw [hbdef]; cases c.next <;> rfl
      refine ⟨sn, hsn, ?_, ?_, ?_, ?_, ?_⟩
      · rw [hmb, lenAt_upd2 segs k _ _ k hk1l, if_neg (by omega), if_pos rfl]
      · rw [lenAt_upd2 segs k _ _ k hk1l, if_neg (by omega), if_pos rfl]
        dsimp only
        omega
      · rw [hmb, lenAt_upd2 segs k _ _ (k + 1) hk1l, if_pos rfl]
      · intro j hj1 hj2
        rw [lenAt_upd2 segs k _ _ j hk1l, if_neg hj2, if_neg hj1]
      · intro h0
        exact absurd h0 hz

theorem apulse_one_zeros (pl lpl : Nat) (t : List Nat)
    (hz : ∀ j, j < t.length → t.getD j 0 = 0) :
    apulse pl lpl (1 :: t) = 1 :: t := by
  match t with
  | [] => simp [apulse]
  | y :: r =>
    have hy : y = 0 := hz 0 (by simp)
    subst hy
    rw [apulse_skip_eq, apulse_zero_cons,
      apulse_allZero pl lpl r (fun j hj => hz (j + 1) (by simpa using hj))]

/-- The pulling iteration: under the invariant, a visited cell of length one
either ends the pulse or continues at a later nonzero cell; the invariant is
preserved and the lengths change exactly as the abstract pulse prescribes. -/
theorem visit_spec_pull (pl lpl L : Nat)
    (segs : List Seg) (k : Nat) (hinv : Inv L segs) (hk : k < L + 1)
    (c : Seg) (hc : segs[k]? = some c) (h1 : ¬ 1 < c.len) (hnz : c.len ≠ 0) :
    (∃ segs2, visit pl lpl segs k = .brk segs2 ∧ Inv L segs2 ∧
      (lensOf segs2).take k = (lensOf segs).take k ∧
      apulse pl lpl ((lensOf segs).drop k) = (lensOf segs2).drop k) ∨
    (∃ segs2 k2, visit pl lpl segs k = .cont segs2 k2 ∧ Inv L segs2 ∧
      k < k2 ∧ k2 < L + 1 ∧ lenAt segs2 k2 ≠ 0 ∧
      (lensOf segs2).take k = (lensOf segs).take k ∧
      apulse pl lpl ((lensOf segs).drop k) =
        ((lensOf segs2).drop k).take (k2 - k) ++ apulse pl lpl ((lensOf segs2).drop k2)) := by
  have hlen := hinv.hlen
  have hkl : k < segs.length := by rw [hlen]; exact hk
  have hlck : lenAt segs k = c.len := lenAt_some hc
  have hclen1 : c.len = 1 := by omega
  have hcanonK := hinv.hcanon k c hc hnz
  have hdropk : (lensOf segs).drop k = c.len :: (lensOf segs).drop (k + 1) :=
    drop_lensOf_cons segs k c hc
  cases hnx : c.next with
  | none =>
    -- terminal single cell: the loop breaks with the state unchanged
    left
    refine ⟨segs, visit_eq_pull_none pl lpl segs k c hc h1 hnx, hinv, rfl, ?_⟩
    have hz := hcanonK.2 hnx
    rw [hdropk, hclen1]
    rw [apulse_one_zeros pl lpl _ ?_]
    intro j hj
    rw [getD_lensOf_drop, ← lenAt_eq_getD]
    apply hz (k + 1 + j) (by omega)
    rw [List.length_drop, length_lensOf] at hj
    omega
  | some nx =>
    obtain ⟨hknx, hnxl, hnxnz, hbet⟩ := hcanonK.1 nx hnx
    have hk1l : k + 1 < segs.length := by omega
    obtain ⟨sn, hsn⟩ : ∃ sn, segs[k + 1]? = some sn :=
      ⟨_, List.getElem?_eq_getElem hk1l⟩
    have hlsn : lenAt segs (k + 1) = sn.len := lenAt_some hsn
    have hveq := visit_eq_pull_some pl lpl segs k c sn nx hc h1 hnx hsn
    by_cases hsnz : sn.len = 0
    · -- the sequentially next cell is empty: move on to the linked successor
      right
      have hnxk1 : k + 1 < nx := by
        rcases Nat.lt_or_ge (k + 1) nx with h | h
        · exact h
        · exfalso
          have : nx = k + 1 := by omega
          subst this
          rw [hlsn] at hnxnz
          exact hnxnz hsnz
      refine ⟨segs, nx, ?_, hinv, hknx, by omega, hnxnz, rfl, ?_⟩
      · rw [hveq, if_neg (by simp [hsnz])]
      · have hd1 : (lensOf segs).drop (k + 1) = 0 :: (lensOf segs).drop (k + 2) := by
          rw [drop_lensOf_cons segs (k + 1) sn hsn, ← hlsn, hlsn, hsnz]
        rw [hdropk, hclen1, hd1, apulse_skip_eq, ← hd1]
        have hskip := apulse_zeros_skip pl lpl (nx - (k + 1)) ((lensOf segs).drop (k + 1))
          ?_ ?_
        · rw [hskip, List.drop_drop]
          have harith : k + 1 + (nx - (k + 1)) = nx := by omega
          rw [harith]
          have htake : List.take (nx - k) (1 :: (lensOf segs).drop (k + 1)) =
              1 :: ((lensOf segs).drop (k + 1)).take (nx - (k + 1)) := by
            have harith2 : nx - k = (nx - (k + 1)) + 1 := by omega
            rw [harith2, List.take_succ_cons]
          rw [htake]
          rfl
        · intro j hj
          rw [getD_lensOf_drop, ← lenAt_eq_getD]
          exact hbet (k + 1 + j) (by omega) (by omega)
        · rw [List.length_drop, length_lensOf]
          omega
    · -- merge the sequentially next cell into the current cell
      have hnxeq : nx = k + 1 := by
        rcases Nat.lt_or_ge (k + 1) nx with h | h
        · exact absurd (hbet (k + 1) (by omega) h) (by rw [hlsn]; exact hsnz)
        · omega
      have hcanonSn := hinv.hcanon (k + 1) sn hsn hsnz
      have hinv2 : Inv L ((segs.set k ⟨c.len + sn.len, sn.next⟩).set (k + 1)
          ⟨0, sn.next⟩) := by
        refine ⟨by rw [length_upd2]; exact hlen, ?_, ?_, ?_⟩
        · have hs := sumLens_upd2 segs k ⟨c.len + sn.len, sn.next⟩ ⟨0, sn.next⟩ hk1l
          rw [hlck, hlsn] at hs
          dsimp only at hs
          rw [← hinv.hsum]
          omega
        · intro m hm
          rcases Nat.lt_or_ge m (k + 1) with hmk | hmk
          · rw [prefixLens_upd2_le segs k _ _ m (by omega)]
            exact hinv.hpfx m hm
          · rcases Nat.eq_or_lt_of_le hmk with hmk1 | hmk1
            · subst hmk1
              have hp := prefixLens_upd2_succ segs k ⟨c.len + sn.len, sn.next⟩
                ⟨0, sn.next⟩ hkl
              rw [hlck] at hp
              dsimp only at hp
              have he := prefixLens_succ segs k
              rw [hlck] at he
              have := hinv.hpfx k (by omega)
              omega
            · have hp := prefixLens_upd2_ge segs k ⟨c.len + sn.len, sn.next⟩
                ⟨0, sn.next⟩ m (by omega) hk1l
              rw [hlck, hlsn] at hp
              dsimp only at hp
              have := hinv.hpfx m hm
              omega
        · apply upd2_canon segs k _ _ hk1l hinv.hcanon (by rw [hlck]; exact hnz)
            (by dsimp only; omega)
          · constructor
            · intro j hj
              dsimp only at hj
              obtain ⟨hkj, hjL, hjnz, hbet2⟩ := hcanonSn.1 j hj
              refine ⟨by omega, by rw [length_upd2]; exact hjL, ?_, ?_⟩
              · rw [lenAt_upd2 segs k _ _ j hk1l, if_neg (by omega), if_neg (by omega)]
                exact hjnz
              · intro m hm1 hm2
                by_cases hmk1 : m = k + 1
                · rw [hmk1, lenAt_upd2 segs k _ _ (k + 1) hk1l, if_pos rfl]
                · rw [lenAt_upd2 segs k _ _ m hk1l, if_neg hmk1, if_neg (by omega)]
                  exact hbet2 m (by omega) hm2
            · intro hno m hm1 hm2
              dsimp only at hno
              rw [length_upd2] at hm2
              by_cases hmk1 : m = k + 1
              · rw [hmk1, lenAt_upd2 segs k _ _ (k + 1) hk1l, if_pos rfl]
              · rw [lenAt_upd2 segs k _ _ m hk1l, if_neg hmk1, if_neg (by omega)]
                exact hcanonSn.2 hno m (by omega) hm2
          · intro hc2nz
            exact absurd rfl hc2nz
      have hdropU : (lensOf ((segs.set k ⟨c.len + sn.len, sn.next⟩).set (k + 1)
          ⟨0, sn.next⟩)).drop k = (c.len + sn.len) :: 0 :: (lensOf segs).drop (k + 2) :=
        drop_lensOf_upd2_eq segs k _ _ hk1l
      have hdropU1 : (lensOf ((segs.set k ⟨c.len + sn.len, sn.next⟩).set (k + 1)
          ⟨0, sn.next⟩)).drop (k + 1) = 0 :: (lensOf segs).drop (k + 2) :=
        drop_lensOf_upd2_succ segs k _ _ hk1l
      have hdropS1 : (lensOf segs).drop (k + 1) = sn.len :: (lensOf segs).drop (k + 2) :=
        drop_lensOf_cons segs (k + 1) sn hsn
      have happ : apulse pl lpl ((lensOf segs).drop k) =
          (c.len + sn.len) :: apulse pl lpl (0 :: (lensOf segs).drop (k + 2)) := by
        rw [hdropk, hclen1, hdropS1, apulse_pull_eq pl lpl sn.len _ hsnz]
      cases hsnn : sn.next with
      | none =>
        -- merged with the final cell: the loop breaks
        left
        refine ⟨(segs.set k ⟨c.len + sn.len, sn.next⟩).set (k + 1) ⟨0, sn.next⟩,
          ?_, hinv2, take_lensOf_upd2 segs k _ _ k le_rfl, ?_⟩
        · rw [hveq, if_pos hsnz, hsnn]
        · have hzafter := hcanonSn.2 hsnn
          rw [happ, hdropU, ← hdropU1]
          congr 1
          rw [apulse_allZero pl lpl _ ?_]
          intro j hj
          rw [hdropU1] at hj ⊢
          cases j with
          | zero => rfl
          | succ m =>
            simp only [List.getD_cons_succ]
            rw [getD_lensOf_drop, ← lenAt_eq_getD]
            apply hzafter (k + 2 + m) (by omega)
            simp only [List.length_cons, List.length_drop, length_lensOf] at hj
            omega
      | some k3 =>
        -- merged with a linked cell that has a successor: continue there
        right
        obtain ⟨hk1k3, hk3L, hk3nz, hbet3⟩ := hcanonSn.1 k3 hsnn
        refine ⟨(segs.set k ⟨c.len + sn.len, sn.next⟩).set (k + 1) ⟨0, sn.next⟩, k3,
          ?_, hinv2, by omega, by rw [← hlen]; exact hk3L, ?_,
          take_lensOf_upd2 segs k _ _ k le_rfl, ?_⟩
        · rw [hveq, if_pos hsnz, hsnn]
        · rw [lenAt_upd2 segs k _ _ k3 hk1l, if_neg (by omega), if_neg (by omega)]
          exact hk3nz
        · rw [happ, hdropU, ← hdropU1]
          have hskip := apulse_zeros_skip pl lpl (k3 - (k + 1))
            ((lensOf ((segs.set k ⟨c.len + sn.len, sn.next⟩).set (k + 1)
              ⟨0, sn.next⟩)).drop (k + 1)) ?_ ?_
          · rw [hskip, List.drop_drop]
            have harith : k + 1 + (k3 - (k + 1)) = k3 := by omega
            rw [harith]
            have htake : List.take (k3 - k) ((c.len + sn.len) ::
                (lensOf ((segs.set k ⟨c.len + sn.len, sn.next⟩).set (k + 1)
                  ⟨0, sn.next⟩)).drop (k + 1)) =
                (c.len + sn.len) :: ((lensOf ((segs.set k ⟨c.len + sn.len,
                  sn.next⟩).set (k + 1) ⟨0, sn.next⟩)).drop (k + 1)).take (k3 - (k + 1)) := by
              have harith2 : k3 - k = (k3 - (k + 1)) + 1 := by omega
              rw [harith2, List.take_succ_cons]
            rw [htake]
            rfl
          · intro j hj
            rw [hdropU1]
            cases j with
            | zero => rfl
            | succ m =>
              simp only [List.getD_cons_succ]
              rw [getD_lensOf_drop, ← lenAt_eq_getD]
              apply hbet3 (k + 2 + m) (by omega)
              omega
          · rw [List.length_drop, length_lensOf, length_upd2]
            omega

/-- One iteration of the loop, all cases combined. -/
theorem visit_spec (pl lpl L : Nat) (hpl : 1 ≤ pl) (hlpl : pl ≤ lpl)
    (segs : List Seg) (k : Nat) (hinv : Inv L segs) (hk : k < L + 1)
    (hnz : lenAt segs k ≠ 0) :
    (∃ segs2, visit pl lpl segs k = .brk segs2 ∧ Inv L segs2 ∧
      (lensOf segs2).take k = (lensOf segs).take k ∧
      apulse pl lpl ((lensOf segs).drop k) = (lensOf segs2).drop k ∧
      PushStep pl lpl segs k segs2) ∨
    (∃ segs2 k2, visit pl lpl segs k = .cont segs2 k2 ∧ Inv L segs2 ∧
      k < k2 ∧ k2 < L + 1 ∧ lenAt segs2 k2 ≠ 0 ∧
      (lensOf segs2).take k = (lensOf segs).take k ∧
      (apulse pl lpl ((lensOf segs).drop k) =
        ((lensOf segs2).drop k).take (k2 - k) ++ apulse pl lpl ((lensOf segs2).drop k2)) ∧
      PushStep pl lpl segs k segs2) := by
  have hkl : k < segs.length := by rw [hinv.hlen]; exact hk
  obtain ⟨c, hc⟩ : ∃ c, segs[k]? = some c := ⟨_, List.getElem?_eq_getElem hkl⟩
  have hcnz : c.len ≠ 0 := by rw [← lenAt_some hc]; exact hnz
  by_cases h1 : 1 < c.len
  · right
    obtain ⟨s2, hv, hi, hklt, hnz2, htk, hap, hps⟩ :=
      visit_spec_push pl lpl L hpl hlpl segs k hinv hk c hc h1
    refine ⟨s2, k + 1, hv, hi, by omega, hklt, hnz2, htk, ?_, hps⟩
    have h11 : k + 1 - k = 1 := by omega
    rw [h11]
    exact hap
  · have hvac : PushStep pl lpl segs k = fun _ => True := by
      funext s2
      simp only [PushStep, eq_iff_iff, iff_true]
      intro c2 hc2 h12
      rw [hc] at hc2
      obtain rfl : c = c2 := Option.some_inj.mp hc2
      exact absurd h12 h1
    rcases visit_spec_pull pl lpl L segs k hinv hk c hc h1 hcnz with
      ⟨s2, hv, hi, htk, hap⟩ | ⟨s2, k2, hv, hi, hkk2, hk2L, hnz2, htk, hap⟩
    · exact Or.inl ⟨s2, hv, hi, htk, hap, by rw [hvac]; trivial⟩
    · exact Or.inr ⟨s2, k2, hv, hi, hkk2, hk2L, hnz2, htk, hap, by rw [hvac]; trivial⟩

/-- The per-visit push property instantiated along a recorded trace: every
logged iteration satisfies the push rule with respect to the state at the
start of the following iteration (or the final state, for the last one). -/
def PushLog (pl lpl : Nat) (final : List Seg) : List (Nat × List Seg) → Prop
  | [] => True
  | (k, s) :: rest =>
    PushStep pl lpl s k (match rest.head? with | some pr => pr.2 | none => final) ∧
      PushLog pl lpl final rest

/-- Master lemma for the pulse loop: from any chain cell, with fuel at least
the number of remaining cells, the loop terminates, preserves the invariant,
computes the abstract pulse on the cells from the current one on, and visits
strictly increasing chain cells, each visit obeying the push rule. -/
theorem pulseLoopLog_spec (pl lpl L : Nat) (hpl : 1 ≤ pl) (hlpl : pl ≤ lpl) :
    ∀ fuel segs k, Inv L segs → k < L + 1 → lenAt segs k ≠ 0 → L + 1 - k ≤ fuel →
      ∃ segs2 log, pulseLoopLog pl lpl fuel segs k = some (segs2, log) ∧
        Inv L segs2 ∧
        (lensOf segs2).take k = (lensOf segs).take k ∧
        (lensOf segs2).drop k = apulse pl lpl ((lensOf segs).drop k) ∧
        log.head? = some (k, segs) ∧
        List.Chain' (fun a b => a < b) (log.map Prod.fst) ∧
        (∀ pr ∈ log, k ≤ pr.1 ∧ pr.1 < L + 1) ∧
        log.length ≤ fuel ∧
        PushLog pl lpl segs2 log := by
  intro fuel
  induction fuel with
  | zero => intro segs k _ hk _ hf; omega
  | succ n ih =>
    intro segs k hinv hk hnz hf
    rcases visit_spec pl lpl L hpl hlpl segs k hinv hk hnz with
      ⟨s3, hv, hi3, htk, hap, hps⟩ | ⟨s3, k2, hv, hi3, hkk2, hk2L, hnz2, htk, hap, hps⟩
    · refine ⟨s3, [(k, segs)], ?_, hi3, htk, hap.symm, rfl, ?_, ?_, ?_, ?_⟩
      · rw [pulseLoopLog, hv]
      · simp
      · intro pr hpr
        rw [List.mem_singleton] at hpr
        subst hpr
        exact ⟨le_rfl, hk⟩
      · simp
      · exact ⟨hps, trivial⟩
    · obtain ⟨s4, log4, hrec, hi4, htk4, hap4, hhead4, hchain4, hmem4, hlen4, hplog4⟩ :=
        ih s3 k2 hi3 hk2L hnz2 (by omega)
      refine ⟨s4, (k, segs) :: log4, ?_, hi4, ?_, ?_, rfl, ?_, ?_, ?_, ?_⟩
      · simp only [pulseLoopLog, hv, hrec, Option.map_some]
        rfl
      · have h2 : (lensOf s4).take k = ((lensOf s4).take k2).take k := by
          rw [List.take_take, min_eq_left (by omega)]
        rw [h2, htk4, List.take_take, min_eq_left (by omega), htk]
      · have hsplit : (lensOf s4).drop k =
            ((lensOf s4).drop k).take (k2 - k) ++ ((lensOf s4).drop k).drop (k2 - k) :=
          (List.take_append_drop _ _).symm
        have hdd : ((lensOf s4).drop k).drop (k2 - k) = (lensOf s4).drop k2 := by
          rw [List.drop_drop]
          congr 1
          omega
        have htt : ((lensOf s4).drop k).take (k2 - k) =
            ((lensOf s3).drop k).take (k2 - k) := by
          rw [List.take_drop, List.take_drop]
          have harith : k + (k2 - k) = k2 := by omega
          rw [harith, htk4]
        rw [hap, hsplit, hdd, htt, hap4]
      · rw [List.map_cons]
        rw [List.chain'_cons']
        constructor
        · intro y hy
          have : (log4.map Prod.fst).head? = some k2 := by
            cases hl4 : log4 with
            | nil => rw [hl4] at hhead4; exact Option.noConfusion hhead4
            | cons a t =>
              rw [hl4] at hhead4
              have : a = (k2, s3) := by
                simp only [List.head?_cons] at hhead4
                exact Option.some_inj.mp hhead4
              subst this
              simp
          rw [this] at hy
          have : y = k2 := Option.some_inj.mp hy.symm
          subst this
          exact hkk2
        · exact hchain4
      · intro pr hpr
        rcases List.mem_cons.mp hpr with h | h
        · subst h
          exact ⟨le_rfl, hk⟩
        · have := hmem4 pr h
          exact ⟨by omega, this.2⟩
      · simp only [List.length_cons]
        omega
      · refine ⟨?_, hplog4⟩
        have hm : (match log4.head? with | some pr => pr.2 | none => s4) = s3 := by
          rw [hhead4]
        rw [hm]
        exact hps

/-- Every successful run of the pulse loop preserves the total number of
blocks. -/
theorem pulseLoop_sum (pl lpl : Nat) :
    ∀ fuel segs curr segs2, pulseLoop pl lpl fuel segs curr = some segs2 →
      sumLens segs2 = sumLens segs := by
  intro fuel
  induction fuel with
  | zero => intro segs curr segs2 h; exact Option.noConfusion h
  | succ n ih =>
    intro segs curr segs2 h
    rw [pulseLoop] at h
    cases hv : visit pl lpl segs curr with
    | cont s3 k =>
      rw [hv] at h
      have h2 := ih s3 k segs2 h
      rw [h2]
      exact visit_sum pl lpl segs curr s3 (Or.inl ⟨k, hv⟩)
    | brk s3 =>
      rw [hv] at h
      have hs : s3 = segs2 := Option.some_inj.mp h
      subst hs
      exact visit_sum pl lpl segs curr s3 (Or.inr hv)
    | ub =>
      rw [hv] at h
      exact Option.noConfusion h

/-- The plain loop is the ghost-instrumented loop with the trace erased. -/
theorem pulseLoop_eq_log (pl lpl : Nat) :
    ∀ fuel segs curr, pulseLoop pl lpl fuel segs curr =
      (pulseLoopLog pl lpl fuel segs curr).map Prod.fst := by
  intro fuel
  induction fuel with
  | zero => intro segs curr; rfl
  | succ n ih =>
    intro segs curr
    rw [pulseLoop, pulseLoopLog]
    cases hv : visit pl lpl segs curr with
    | cont s3 k => simp [ih s3 k, Option.map_map]; rfl
    | brk s3 => rfl
    | ub => rfl

/-- simulate_pulse on an invariant state: it succeeds, preserves the
invariant, and computes exactly the abstract pulse on the lengths. -/
theorem simulate_pulse_spec (pl lpl L : Nat) (hpl : 1 ≤ pl) (hlpl : pl ≤ lpl)
    (e : Extender) (hinv : Inv L e.segments) :
    ∃ e2, simulate_pulse pl lpl e = some e2 ∧ Inv L e2.segments ∧
      lensOf e2.segments = apulse pl lpl (lensOf e.segments) := by
  have hnz : lenAt e.segments 0 ≠ 0 := lenAt_pos_of_inv_zero hinv
  obtain ⟨s2, log, hlog, hi2, _, hdrop, _, _, _, _, _⟩ :=
    pulseLoopLog_spec pl lpl L hpl hlpl e.segments.length e.segments 0 hinv
      (by omega) hnz (by rw [hinv.hlen]; omega)
  refine ⟨⟨s2⟩, ?_, hi2, ?_⟩
  · rw [simulate_pulse, pulseLoop_eq_log, hlog]
    rfl
  · simpa using hdrop

/-- Every state along a run from create exists and satisfies the
invariant. -/
theorem run_inv (pl lpl L : Nat) (hpl : 1 ≤ pl) (hlpl : pl ≤ lpl) :
    ∀ n, ∃ e, run pl lpl L n = some e ∧ Inv L e.segments := by
  intro n
  induction n with
  | zero => exact ⟨create L, rfl, inv_create L⟩
  | succ m ih =>
    obtain ⟨e, hrun, hinv⟩ := ih
    obtain ⟨e2, hp, hi2, _⟩ := simulate_pulse_spec pl lpl L hpl hlpl e hinv
    exact ⟨e2, by rw [run, hrun, Option.some_bind]; exact hp, hi2⟩

/-- On invariant states, finished holds exactly when cell 0 has no linked
successor, which holds exactly when cell 0 carries all kLength + 1 blocks
and every other cell is empty. -/
theorem finished_iff (L : Nat) (e : Extender) (hinv : Inv L e.segments) :
    (finished e = true ↔ nextAt e.segments 0 = none) ∧
    (finished e = true ↔ (lenAt e.segments 0 = L + 1 ∧
      ∀ i, 1 ≤ i → i < L + 1 → lenAt e.segments i = 0)) := by
  have h0l : 0 < e.segments.length := by rw [hinv.hlen]; omega
  obtain ⟨c, hc⟩ : ∃ c, e.segments[0]? = some c := ⟨_, List.getElem?_eq_getElem h0l⟩
  have hcnz : c.len ≠ 0 := by
    rw [← lenAt_some hc]
    exact lenAt_pos_of_inv_zero hinv
  have hfin : finished e = c.next.isNone := by simp [finished, hc]
  have hnextAt : nextAt e.segments 0 = c.next := by simp [nextAt, hc]
  have hfwd : finished e = true ↔ c.next = none := by
    rw [hfin, Option.isNone_iff_eq_none]
  constructor
  · rw [hfwd, hnextAt]
  · rw [hfwd]
    constructor
    · intro hnone
      have hz := (hinv.hcanon 0 c hc hcnz).2 hnone
      have hlens : lensOf e.segments = c.len :: (lensOf e.segments).drop 1 := by
        have := drop_lensOf_cons e.segments 0 c hc
        simpa using this
      have hsum0 : ((lensOf e.segments).drop 1).sum = 0 := by
        apply List.sum_eq_zero
        intro x hx
        obtain ⟨m, hm⟩ := List.getElem?_of_mem hx
        rw [List.getElem?_drop] at hm
        have hlt : 1 + m < e.segments.length := by
          rw [← length_lensOf]
          exact length_of_getElem?_eq_some hm
        have hxval : lenAt e.segments (1 + m) = x := by
          rw [lenAt_eq_getD, List.getD_eq_getElem?_getD, hm]
          rfl
        rw [← hxval]
        exact hz (1 + m) (by omega) hlt
      have hsum := hinv.hsum
      rw [sumLens, hlens] at hsum
      simp only [List.sum_cons, hsum0] at hsum
      constructor
      · rw [lenAt_some hc]
        omega
      · intro i hi1 hiL
        exact hz i (by omega) (by rw [hinv.hlen]; exact hiL)
    · intro ⟨hc0, hrest⟩
      cases hnx : c.next with
      | none => rfl
      | some j =>
        obtain ⟨hij, hjl, hjnz, _⟩ := (hinv.hcanon 0 c hc hcnz).1 j hnx
        exact absurd (hrest j (by omega) (by rw [← hinv.hlen]; exact hjl)) hjnz

/-- The equality walk of a canonical state against itself reaches the null
pointers in lock step and answers true. -/
theorem equalsLoop_self (L : Nat) (segs : List Seg) (hinv : Inv L segs) :
    ∀ fuel i, i < L + 1 → lenAt segs i ≠ 0 → L + 2 - i ≤ fuel →
      equalsLoop fuel segs segs (some i) (some i) = some true := by
  intro fuel
  induction fuel with
  | zero => intro i hi _ hf; omega
  | succ n ih =>
    intro i hi hnz hf
    have hil : i < segs.length := by rw [hinv.hlen]; exact hi
    obtain ⟨c, hc⟩ : ∃ c, segs[i]? = some c := ⟨_, List.getElem?_eq_getElem hil⟩
    have hcnz : c.len ≠ 0 := by rw [← lenAt_some hc]; exact hnz
    have hred : equalsLoop (n + 1) segs segs (some i) (some i) =
        equalsLoop n segs segs c.next c.next := by
      simp only [equalsLoop, hc]
      rw [if_neg (by simp), if_neg (by simp)]
    rw [hred]
    cases hnx : c.next with
    | none =>
      obtain ⟨m, rfl⟩ : ∃ m, n = m + 1 := ⟨n - 1, by omega⟩
      rfl
    | some j =>
      obtain ⟨hij, hjl, hjnz, _⟩ := (hinv.hcanon i c hc hcnz).1 j hnx
      exact ih j (by rw [← hinv.hlen]; exact hjl) hjnz (by omega)

/-- snaperz::equals of an invariant state compared with itself answers
true. -/
theorem equals_self (L : Nat) (e : Extender) (hinv : Inv L e.segments) :
    equals e e = some true := by
  rw [equals]
  apply equalsLoop_self L e.segments hinv (e.segments.length + 1) 0 (by omega)
    (lenAt_pos_of_inv_zero hinv)
  rw [hinv.hlen]
  omega

/-- Any state actually produced by a run satisfies the invariant. -/
theorem run_inv_of (pl lpl L : Nat) (hpl : 1 ≤ pl) (hlpl : pl ≤ lpl) (n : Nat)
    (e : Extender) (hrun : run pl lpl L n = some e) : Inv L e.segments := by
  obtain ⟨e2, hrun2, hinv⟩ := run_inv pl lpl L hpl hlpl n
  rw [hrun] at hrun2
  obtain rfl := Option.some_inj.mp hrun2
  exact hinv

/-- Conservation for the scalar engine needs no assumptions on the push
limits: every state a run actually produces has total length kLength + 1. -/
theorem run_sum (pl lpl L : Nat) :
    ∀ n e, run pl lpl L n = some e → sumLens e.segments = L + 1 := by
  intro n
  induction n with
  | zero =>
    intro e h
    obtain rfl := Option.some_inj.mp h
    exact (inv_create L).hsum
  | succ m ih =>
    intro e h
    rw [run] at h
    cases hr : run pl lpl L m with
    | none =>
      rw [hr] at h
      exact Option.noConfusion h
    | some e1 =>
      rw [hr, Option.some_bind] at h
      rw [simulate_pulse] at h
      cases hpl2 : pulseLoop pl lpl e1.segments.length e1.segments 0 with
      | none =>
        rw [hpl2] at h
        exact Option.noConfusion h
      | some s2 =>
        rw [hpl2] at h
        rw [show Option.map Extender.mk (some s2) = some (Extender.mk s2) from rfl] at h
        obtain rfl := Option.some_inj.mp h
        have hs := pulseLoop_sum pl lpl e1.segments.length e1.segments 0 s2 hpl2
        rw [show (Extender.mk s2).segments = s2 from rfl, hs]
        exact ih e1 hr

end fallback

namespace avx2

/-- to_even of snaperz_extender_avx2.h. -/
def to_even (v : Nat) : Nat := v + (v &&& 1)

/-- kElemCount of snaperz_extender_avx2.h for the uint8_t specialization:
32 byte lanes per 256-bit register. -/
def kElemCount : Nat := 32

/-- kSegCount of snaperz_extender_avx2.h as a function of kLength. -/
def kSegCount (L : Nat) : Nat :=
  if 2 * kElemCount < L + 1 then L + 1 else to_even (L + 1)

/-- kSaturationCount of snaperz_extender_avx2.h as a function of kLength. -/
def kSatCount (L : Nat) : Nat := min (kSegCount L) (2 * kElemCount)

/-- A 256-bit register of 32 byte lanes, lane 0 first; every lane value is
kept below 256. -/
abbrev Vec8 := List Nat

/-- Byte-lane addition (_mm256_add_epi8). -/
def add8 (a b : Nat) : Nat := (a + b) % 256

/-- Byte-lane subtraction (_mm256_sub_epi8). -/
def sub8 (a b : Nat) : Nat := (a + (256 - b % 256)) % 256

/-- Byte-lane compare-equal (_mm256_cmpeq_epi8): all ones when equal. -/
def cmpeq8 (a b : Nat) : Nat := if a = b then 255 else 0

/-- Byte-lane unsigned minimum (_mm256_min_epu8). -/
def min8 (a b : Nat) : Nat := min a b

/-- Byte-lane blend (_mm256_blendv_epi8): picks b where the mask byte has its
high bit set, a elsewhere. -/
def blendv8 (a b m : Nat) : Nat := if 128 ≤ m % 256 then b else a

/-- Byte-lane and-not (_mm256_andnot_si256 restricted to one byte). -/
def andnot8 (a b : Nat) : Nat := (255 - a % 256) &&& b

/-- Byte-lane and (_mm256_and_si256 restricted to one byte). -/
def and8 (a b : Nat) : Nat := a &&& b

/-- Broadcast (_mm256_set1_epi8); the C++ intrinsic truncates to 8 bits. -/
def vset1 (x : Nat) : Vec8 := List.replicate 32 (x % 256)

/-- The zero register (_mm256_setzero_si256). -/
def vzero : Vec8 := List.replicate 32 0

/-- The lane-wise right shift of avx2::_right_shift for uint8_t: every lane
receives the next higher lane, the top lane becomes zero. -/
def vrshift (v : Vec8) : Vec8 := v.tail ++ [0]

/-- A pair of registers, indexed by the parity bit (models the two-element
register arrays _windows and _last_seg_masks). -/
structure Duo where
  a0 : Vec8
  a1 : Vec8
deriving DecidableEq, Repr

/-- Read the register selected by the parity index. -/
def getP (d : Duo) (i : Nat) : Vec8 := if i = 0 then d.a0 else d.a1

/-- Write the register selected by the parity index. -/
def setP (d : Duo) (i : Nat) (v : Vec8) : Duo :=
  if i = 0 then { d with a0 := v } else { d with a1 := v }

/-- Vectorized extender state (struct Extender of snaperz_extender_avx2.h)
for the uint8_t lane specialization. -/
structure AExtender where
  segments : List Nat
  windows : Duo
  counter : Vec8
  lastSegMasks : Duo
  parity_bit : Nat
  p : Nat
  steps : Nat
deriving DecidableEq, Repr

/-- Translation of avx2::_simulate_step of snaperz_extender_avx2.h, uint8_t
specialization, parameterized by kLength, kPushLimit, kLastPushLimit. -/
def _simulate_step (L pl lpl : Nat) (e : AExtender) : AExtender :=
  let op := e.parity_bit
  let np := op ^^^ 1
  let curr := getP e.windows op
  let next0 := getP e.windows np
  -- store the oldest lane of the outgoing window back into the dense array,
  -- once the windows have saturated
  let segments1 :=
    if kSatCount L ≤ e.steps then
      e.segments.set ((e.p + (kSegCount L - kSatCount L)) % kSegCount L) (next0.headD 0)
    else e.segments
  -- shift the next window one lane and insert the dense value at cursor p
  let next1 := vrshift next0
  let nextLength := segments1.getD e.p 0
  let next2 := next1.set (kSatCount L / 2 - 1) (nextLength % 256)
  -- counter update and last-segment test before the deltas
  let counter1 := List.zipWith add8 e.counter curr
  let m1 := List.zipWith cmpeq8 counter1 (vset1 (L + 1))
  -- pushing case
  let currMinusOne := List.zipWith sub8 curr (vset1 1)
  let currPushLimit := List.zipWith (fun m a => blendv8 a (lpl % 256) m) m1 (vset1 pl)
  let pushDelta1 := List.zipWith min8 currPushLimit currMinusOne
  let equalOneMask := List.zipWith cmpeq8 curr (vset1 1)
  let pushDelta2 := List.zipWith andnot8 equalOneMask pushDelta1
  let equalZeroMask := List.zipWith cmpeq8 curr vzero
  let pushDelta := List.zipWith andnot8 equalZeroMask pushDelta2
  -- pulling case
  let pullDelta1 := List.zipWith andnot8 m1 next2
  let pullDelta := List.zipWith and8 equalOneMask pullDelta1
  -- net delta, applied to both windows
  let delta := List.zipWith sub8 pullDelta pushDelta
  let curr2 := List.zipWith add8 curr delta
  let next3 := List.zipWith sub8 next2 delta
  -- counter update and last-segment test after the deltas; reset the counter
  -- where the last-segment flag is set
  let counter2 := List.zipWith add8 counter1 delta
  let m2 := List.zipWith cmpeq8 counter2 (vset1 (L + 1))
  let counter3 := List.zipWith andnot8 m2 counter2
  { segments := segments1
    windows := setP (setP e.windows op curr2) np next3
    counter := counter3
    lastSegMasks := setP e.lastSegMasks np m2
    parity_bit := np
    p := (e.p + 1) % kSegCount L
    steps := e.steps + 1 }

/-- Translation of snaperz::create of snaperz_extender_avx2.h. -/
def create (L : Nat) : AExtender :=
  { segments := (List.range (kSegCount L)).map fun i => if i ≤ L then 1 else 0
    windows := ⟨vzero, vzero⟩
    counter := vzero
    lastSegMasks := ⟨vzero, vzero⟩
    parity_bit := 0
    p := 0
    steps := 0 }

/-- The leading while loop of snaperz::simulate_pulse of
snaperz_extender_avx2.h, with fuel; none models non-termination. -/
def pulseWhile (L pl lpl : Nat) : Nat → AExtender → Option AExtender
  | 0, _ => none
  | fuel + 1, e =>
    if kSatCount L ≤ e.p then pulseWhile L pl lpl fuel (_simulate_step L pl lpl e)
    else some e

/-- Translation of snaperz::simulate_pulse of snaperz_extender_avx2.h: run
steps until the cursor re-enters the window, then perform exactly two
steps. -/
def simulate_pulse (L pl lpl : Nat) (e : AExtender) : Option AExtender :=
  (pulseWhile L pl lpl (kSegCount L + 1) e).map fun e2 =>
    _simulate_step L pl lpl (_simulate_step L pl lpl e2)

/-- Translation of avx2::_finished of snaperz_extender_avx2.h, uint8_t
specialization: test the last-segment flag of the lane holding the first
logical segment. -/
def finished (L : Nat) (e : AExtender) : Bool :=
  let firstSegIndex := (if 0 < e.p then 1 else 0) * ((kSatCount L - e.p) / 2)
  let parity := e.parity_bit ^^^ (e.p % 2)
  let m := getP e.lastSegMasks parity
  decide (128 ≤ m.getD firstSegIndex 0)

/-- Translation of avx2::_equals of snaperz_extender_avx2.h, uint8_t
specialization: cursors match, both windows match lane-wise, and the dense
entries outside the resident window match. -/
def equals (L : Nat) (lhs rhs : AExtender) : Bool :=
  if lhs.p ≠ rhs.p then false
  else if ¬ ((List.zipWith cmpeq8 (getP lhs.windows 0) (getP rhs.windows 0)).all
      fun x => x = 255) then false
  else if ¬ ((List.zipWith cmpeq8 (getP lhs.windows 1) (getP rhs.windows 1)).all
      fun x => x = 255) then false
  else
    let cnt := kSegCount L - kSatCount L
    if cnt ≠ 0 then
      decide (((lhs.segments.drop lhs.p).take cnt) = ((rhs.segments.drop rhs.p).take cnt))
    else true

/-- Iterated simulate_pulse from create for the vectorized engine. -/
def run (L pl lpl : Nat) : Nat → Option AExtender
  | 0 => some (create L)
  | n + 1 => (run L pl lpl n).bind (simulate_pulse L pl lpl)

theorem to_even_even (v : Nat) : to_even v % 2 = 0 := by
  rw [to_even, Nat.and_one_is_mod]
  omega

theorem to_even_ge (v : Nat) : v ≤ to_even v := by
  rw [to_even]
  omega

theorem kSeg_pos (L : Nat) : 0 < kSegCount L := by
  rw [kSegCount]
  split
  · omega
  · have := to_even_ge (L + 1)
    omega

theorem kSeg_ge (L : Nat) : L + 1 ≤ kSegCount L := by
  rw [kSegCount]
  split
  · omega
  · exact to_even_ge (L + 1)

theorem kSat_le_kSeg (L : Nat) : kSatCount L ≤ kSegCount L := min_le_left _ _

theorem kSat_le_64 (L : Nat) : kSatCount L ≤ 64 := min_le_right _ _

theorem kSat_pos (L : Nat) : 0 < kSatCount L := by
  rw [kSatCount]
  exact lt_min (kSeg_pos L) (by simp [kElemCount])

theorem kSat_even (L : Nat) : kSatCount L % 2 = 0 := by
  rw [kSatCount, kSegCount]
  split
  · rw [min_eq_right (by omega)]
    exact Nat.mul_mod_right 2 kElemCount
  · rcases Nat.le_total (to_even (L + 1)) (2 * kElemCount) with h | h
    · rw [min_eq_left h]
      exact to_even_even (L + 1)
    · rw [min_eq_right h]
      exact Nat.mul_mod_right 2 kElemCount

theorem step_p (L pl lpl : Nat) (e : AExtender) :
    (_simulate_step L pl lpl e).p = (e.p + 1) % kSegCount L := rfl

theorem step_steps (L pl lpl : Nat) (e : AExtender) :
    (_simulate_step L pl lpl e).steps = e.steps + 1 := rfl

theorem step_parity (L pl lpl : Nat) (e : AExtender) :
    (_simulate_step L pl lpl e).parity_bit = e.parity_bit ^^^ 1 := rfl

/-- The leading while loop of the vectorized simulate_pulse: with fuel beyond
the array size it always exits, at a cursor below the saturation count that
is either unchanged or zero, and any property preserved by single steps is
transported. -/
theorem pulseWhile_spec (L pl lpl : Nat) (P : AExtender → Prop)
    (hP : ∀ s, P s → P (_simulate_step L pl lpl s)) :
    ∀ fuel e, P e → e.p < kSegCount L → kSegCount L + 1 - e.p ≤ fuel →
      ∃ e2, pulseWhile L pl lpl fuel e = some e2 ∧ P e2 ∧
        e2.p < kSatCount L ∧ (e2.p = e.p ∨ e2.p = 0) := by
  intro fuel
  induction fuel with
  | zero => intro e _ hp hf; omega
  | succ n ih =>
    intro e hPe hp hf
    by_cases hsat : kSatCount L ≤ e.p
    · rw [pulseWhile, if_pos hsat]
      have hp2 : (_simulate_step L pl lpl e).p = (e.p + 1) % kSegCount L := step_p ..
      rcases Nat.lt_or_ge (e.p + 1) (kSegCount L) with hlt | hge
      · have hmod : (e.p + 1) % kSegCount L = e.p + 1 := Nat.mod_eq_of_lt hlt
        obtain ⟨e2, h1, h2, h3, h4⟩ := ih (_simulate_step L pl lpl e) (hP e hPe)
          (by rw [hp2, hmod]; exact hlt) (by rw [hp2, hmod]; omega)
        refine ⟨e2, h1, h2, h3, ?_⟩
        rcases h4 with h | h
        · rw [hp2, hmod] at h
          right
          -- if the cursor were unchanged through the recursive call it would
          -- still be at least the saturation count, contradicting h3
          exfalso
          rw [h] at h3
          omega
        · right; exact h
      · have hwrap : e.p + 1 = kSegCount L := by omega
        have hmod : (e.p + 1) % kSegCount L = 0 := by rw [hwrap, Nat.mod_self]
        obtain ⟨m, rfl⟩ : ∃ m, n = m + 1 := ⟨n - 1, by omega⟩
        refine ⟨_simulate_step L pl lpl e, ?_, hP e hPe, ?_, Or.inr ?_⟩
        · rw [pulseWhile, if_neg ?_]
          rw [hp2, hmod]
          have := kSat_pos L
          omega
        · rw [hp2, hmod]
          exact kSat_pos L
        · rw [hp2, hmod]
    · rw [pulseWhile, if_neg hsat]
      exact ⟨e, rfl, hPe, by omega, Or.inl rfl⟩

/-- The cursor invariant of the vectorized engine: even, at most the
saturation count, and inside the dense array. -/
def PCur (L : Nat) (e : AExtender) : Prop :=
  e.p % 2 = 0 ∧ e.p ≤ kSatCount L ∧ e.p < kSegCount L

theorem simulate_pulse_PCur (L pl lpl : Nat) (e : AExtender) (h : PCur L e) :
    ∃ e2, simulate_pulse L pl lpl e = some e2 ∧ PCur L e2 ∧
      e2 = _simulate_step L pl lpl (_simulate_step L pl lpl
        (Option.getD (pulseWhile L pl lpl (kSegCount L + 1) e) e)) := by
  obtain ⟨ew, hw, _, hwsat, hwp⟩ := pulseWhile_spec L pl lpl (fun _ => True)
    (fun _ _ => trivial) (kSegCount L + 1) e trivial h.2.2 (by omega)
  have hweven : ew.p % 2 = 0 := by
    rcases hwp with hp | hp
    · rw [hp]; exact h.1
    · rw [hp]
  have hp1lt : ew.p + 1 < kSegCount L := by
    rcases Nat.lt_or_ge (kSatCount L) (kSegCount L) with hlt | hge
    · omega
    · have hkk : kSatCount L = kSegCount L := le_antisymm (kSat_le_kSeg L) hge
      have heven := kSat_even L
      rw [hkk] at heven
      omega
  have hstep1 : (_simulate_step L pl lpl ew).p = ew.p + 1 := by
    rw [step_p, Nat.mod_eq_of_lt hp1lt]
  have hstep2 : (_simulate_step L pl lpl (_simulate_step L pl lpl ew)).p =
      (ew.p + 2) % kSegCount L := by
    rw [step_p, hstep1]
  refine ⟨_simulate_step L pl lpl (_simulate_step L pl lpl ew), ?_, ?_, ?_⟩
  · rw [simulate_pulse, hw]
    rfl
  · refine ⟨?_, ?_, ?_⟩
    · rw [hstep2]
      rcases Nat.lt_or_ge (ew.p + 2) (kSegCount L) with hlt | hge
      · rw [Nat.mod_eq_of_lt hlt]
        omega
      · have : ew.p + 2 = kSegCount L := by omega
        rw [this, Nat.mod_self]
    · rw [hstep2]
      rcases Nat.lt_or_ge (ew.p + 2) (kSegCount L) with hlt | hge
      · rw [Nat.mod_eq_of_lt hlt]
        have heven := kSat_even L
        omega
      · have : ew.p + 2 = kSegCount L := by omega
        rw [this, Nat.mod_self]
        exact Nat.zero_le _
    · rw [hstep2]
      exact Nat.mod_lt _ (kSeg_pos L)
  · rw [hw]
    rfl

/-- Every state along a run of the vectorized engine exists and satisfies
the cursor invariant. -/
theorem run_PCur (L pl lpl : Nat) :
    ∀ n, ∃ e, run L pl lpl n = some e ∧ PCur L e := by
  intro n
  induction n with
  | zero =>
    refine ⟨create L, rfl, ?_, ?_, ?_⟩
    · rfl
    · exact Nat.zero_le _
    · exact kSeg_pos L
  | succ m ih =>
    obtain ⟨e, hrun, hcur⟩ := ih
    obtain ⟨e2, hp, hcur2, _⟩ := simulate_pulse_PCur L pl lpl e hcur
    exact ⟨e2, by rw [run, hrun, Option.some_bind]; exact hp, hcur2⟩

theorem kSeg_ge2 (L : Nat) : 2 ≤ kSegCount L := by
  rw [kSegCount, kElemCount]
  split
  · omega
  · have h1 := to_even_ge (L + 1)
    have h2 := to_even_even (L + 1)
    omega

/-- A list sum written as a finite sum of padded reads. -/
theorem list_sum_getD (l : List Nat) :
    l.sum = Finset.sum (Finset.range l.length) (fun j => l.getD j 0) := by
  induction l with
  | nil => simp
  | cons a t ih =>
    rw [List.sum_cons, List.length_cons, Finset.sum_range_succ']
    simp only [List.getD_cons_succ, List.getD_cons_zero]
    rw [← ih]
    omega

theorem getD_le_sum (l : List Nat) (j : Nat) : l.getD j 0 ≤ l.sum := by
  rcases Nat.lt_or_ge j l.length with h | h
  · rw [list_sum_getD]
    exact Finset.single_le_sum (f := fun x => l.getD x 0) (fun i _ => Nat.zero_le _)
      (Finset.mem_range.mpr h)
  · simp [List.getD_eq_getElem?_getD, List.getElem?_eq_none h]

theorem getD_of_len_le (l : List Nat) (j : Nat) (h : l.length ≤ j) :
    l.getD j 0 = 0 := by
  simp [List.getD_eq_getElem?_getD, List.getElem?_eq_none h]

theorem getD_zipWith (f : Nat → Nat → Nat) :
    ∀ (l1 l2 : List Nat) (j : Nat), j < l1.length → j < l2.length →
      (List.zipWith f l1 l2).getD j 0 = f (l1.getD j 0) (l2.getD j 0) := by
  intro l1
  induction l1 with
  | nil => intro l2 j h1 _; simp at h1
  | cons a t ih =>
    intro l2 j h1 h2
    cases l2 with
    | nil => simp at h2
    | cons b t2 =>
      cases j with
      | zero => rfl
      | succ m =>
        simp only [List.zipWith_cons_cons, List.getD_cons_succ]
        exact ih t2 m (by simpa using h1) (by simpa using h2)

theorem getD_replicate (n a j : Nat) (h : j < n) :
    (List.replicate n a).getD j 0 = a := by
  induction n generalizing j with
  | zero => omega
  | succ m ih =>
    cases j with
    | zero => rfl
    | succ k =>
      simp only [List.replicate, List.getD_cons_succ]
      exact ih k (by omega)

theorem getD_append_zero (t : List Nat) (j : Nat) :
    (t ++ [0]).getD j 0 = t.getD j 0 := by
  induction t generalizing j with
  | nil => cases j <;> simp
  | cons a s ih =>
    cases j with
    | zero => rfl
    | succ m =>
      simp only [List.cons_append, List.getD_cons_succ]
      exact ih m

theorem getD_vrshift (v : Vec8) (j : Nat) :
    (vrshift v).getD j 0 = v.getD (j + 1) 0 := by
  cases v with
  | nil =>
    rw [vrshift]
    cases j <;> simp
  | cons a t =>
    rw [vrshift]
    simp only [List.tail_cons, List.getD_cons_succ]
    exact getD_append_zero t j

theorem sum_vrshift (v : Vec8) (hv : v ≠ []) :
    (vrshift v).sum + v.headD 0 = v.sum := by
  cases v with
  | nil => exact absurd rfl hv
  | cons a t =>
    rw [vrshift]
    simp [List.sum_append]
    omega

theorem headD_eq_getD (l : List Nat) : l.headD 0 = l.getD 0 0 := by
  cases l <;> rfl

theorem getD_set_self (l : List Nat) (i a : Nat) (h : i < l.length) :
    (l.set i a).getD i 0 = a := by
  simp [List.getD_eq_getElem?_getD, List.getElem?_set_self h]

theorem getD_set_ne (l : List Nat) (i j a : Nat) (h : i ≠ j) :
    (l.set i a).getD j 0 = l.getD j 0 := by
  simp [List.getD_eq_getElem?_getD, List.getElem?_set_ne h]

theorem land255 (x : Nat) (h : x ≤ 255) : 255 &&& x = x := by
  rw [Nat.and_comm]
  rw [show (255 : Nat) = 2 ^ 8 - 1 from by norm_num, Nat.and_pow_two_sub_one_eq_mod]
  omega

theorem blendv8_le (a b m : Nat) (ha : a ≤ 255) (hb : b ≤ 255) :
    blendv8 a b m ≤ 255 := by
  rw [blendv8]
  split <;> assumption

theorem andnot8_zero (z : Nat) (hz : z ≤ 255) : andnot8 0 z = z := by
  rw [andnot8]
  norm_num
  exact land255 z hz

/-- The per-lane value of the net delta register computed by _simulate_step,
as a function of the lane values c (current window), n (shifted next
window), q (blended push limit) and m (last-segment mask byte). -/
def laneDelta (c n q m : Nat) : Nat :=
  sub8 (and8 (cmpeq8 c 1) (andnot8 m n))
    (andnot8 (cmpeq8 c 0) (andnot8 (cmpeq8 c 1) (min8 q (sub8 c 1))))

theorem laneDelta_zero (n q m : Nat) : laneDelta 0 n q m = 0 := by
  rw [laneDelta]
  simp [cmpeq8, and8, andnot8, sub8]

/-- Over one lane the delta moves material between the two windows without
creating or destroying any, as long as the pair fits in a byte. -/
theorem laneDelta_conserve (c n q m : Nat) (hq : q ≤ 255) (hcn : c + n ≤ 255) :
    add8 c (laneDelta c n q m) + sub8 n (laneDelta c n q m) = c + n := by
  by_cases hc0 : c = 0
  · subst hc0
    rw [laneDelta_zero, add8, sub8]
    omega
  by_cases hc1 : c = 1
  · subst hc1
    have hr : andnot8 m n ≤ n := Nat.and_le_right
    have hd : laneDelta 1 n q m = andnot8 m n := by
      rw [laneDelta]
      rw [show cmpeq8 1 1 = 255 from rfl, show cmpeq8 1 0 = 0 from rfl]
      rw [show sub8 1 1 = 0 from rfl, show min8 q 0 = 0 from by simp [min8]]
      rw [show andnot8 255 (0 : Nat) = 0 from rfl, show andnot8 0 (0 : Nat) = 0 from rfl]
      rw [show and8 255 (andnot8 m n) = 255 &&& andnot8 m n from rfl,
        land255 _ (le_trans hr (by omega))]
      rw [sub8]
      omega
    rw [hd, add8, sub8]
    omega
  · have hc2 : 2 ≤ c := by omega
    have e0 : cmpeq8 c 0 = 0 := by rw [cmpeq8, if_neg (by omega)]
    have e1 : cmpeq8 c 1 = 0 := by rw [cmpeq8, if_neg (by omega)]
    have hsub : sub8 c 1 = c - 1 := by rw [sub8]; omega
    have hX : min8 q (c - 1) ≤ c - 1 := Nat.min_le_right q (c - 1)
    have hX2 : min8 q (c - 1) ≤ 255 := le_trans (Nat.min_le_left q (c - 1)) hq
    have hd : laneDelta c n q m = sub8 0 (min8 q (c - 1)) := by
      rw [laneDelta, e0, e1, hsub]
      rw [show and8 0 (andnot8 m n) = 0 from Nat.zero_and _]
      rw [andnot8_zero _ hX2, andnot8_zero _ hX2]
    rw [hd]
    simp only [add8, sub8, min8] at *
    omega

/-- Indexing into a Duo gives one of its two registers. -/
theorem getP_length (w : Duo) (i : Nat) (h0 : w.a0.length = 32)
    (h1 : w.a1.length = 32) : (getP w i).length = 32 := by
  rw [getP]
  split <;> assumption

theorem getP_after (w : Duo) (op : Nat) (hop : op = 0 ∨ op = 1) (u v : Vec8) :
    getP (setP (setP w op u) (op ^^^ 1) v) op = u ∧
      getP (setP (setP w op u) (op ^^^ 1) v) (op ^^^ 1) = v := by
  rcases hop with h | h <;> subst h <;> exact ⟨rfl, rfl⟩

theorem setP_lengths (w : Duo) (op : Nat) (hop : op = 0 ∨ op = 1) (u v : Vec8)
    (hu : u.length = 32) (hv : v.length = 32) :
    (setP (setP w op u) (op ^^^ 1) v).a0.length = 32 ∧
      (setP (setP w op u) (op ^^^ 1) v).a1.length = 32 := by
  rcases hop with h | h <;> subst h
  · exact ⟨hu, hv⟩
  · exact ⟨hv, hu⟩

theorem duo_sum_after (w : Duo) (op : Nat) (hop : op = 0 ∨ op = 1) (u v : Vec8) :
    (getP (setP (setP w op u) (op ^^^ 1) v) 0).sum
      + (getP (setP (setP w op u) (op ^^^ 1) v) 1).sum = u.sum + v.sum := by
  rcases hop with h | h <;> subst h
  · rfl
  · exact Nat.add_comm _ _

theorem duo_sum_split (w : Duo) (op : Nat) (hop : op = 0 ∨ op = 1) :
    (getP w 0).sum + (getP w 1).sum = (getP w op).sum + (getP w (op ^^^ 1)).sum := by
  rcases hop with h | h <;> subst h
  · rfl
  · exact Nat.add_comm _ _

theorem mod_two_xor_one (t : Nat) : t % 2 ^^^ 1 = (t + 1) % 2 := by
  rcases Nat.mod_two_eq_zero_or_one t with h | h
  · rw [h, show (t + 1) % 2 = 1 from by omega]
    rfl
  · rw [h, show (t + 1) % 2 = 0 from by omega]
    rfl

/-- The current window register read by _simulate_step. -/
def wcurr (e : AExtender) : Vec8 := getP e.windows e.parity_bit

/-- The next window register read by _simulate_step. -/
def wnext (e : AExtender) : Vec8 := getP e.windows (e.parity_bit ^^^ 1)

/-- The dense array after the conditional flush at the start of
_simulate_step. -/
def dense1 (L : Nat) (e : AExtender) : List Nat :=
  if kSatCount L ≤ e.steps then
    e.segments.set ((e.p + (kSegCount L - kSatCount L)) % kSegCount L)
      ((wnext e).headD 0)
  else e.segments

/-- The next window after the shift and the insertion of the dense value at
the cursor. -/
def next2v (L : Nat) (e : AExtender) : Vec8 :=
  (vrshift (wnext e)).set (kSatCount L / 2 - 1) ((dense1 L e).getD e.p 0 % 256)

/-- The pre-delta last-segment mask computed by _simulate_step. -/
def m1v (L : Nat) (e : AExtender) : Vec8 :=
  List.zipWith cmpeq8 (List.zipWith add8 e.counter (wcurr e)) (vset1 (L + 1))

/-- The net delta register computed by _simulate_step. -/
def deltav (L pl lpl : Nat) (e : AExtender) : Vec8 :=
  List.zipWith sub8
    (List.zipWith and8 (List.zipWith cmpeq8 (wcurr e) (vset1 1))
      (List.zipWith andnot8 (m1v L e) (next2v L e)))
    (List.zipWith andnot8 (List.zipWith cmpeq8 (wcurr e) vzero)
      (List.zipWith andnot8 (List.zipWith cmpeq8 (wcurr e) (vset1 1))
        (List.zipWith min8
          (List.zipWith (fun m a => blendv8 a (lpl % 256) m) (m1v L e) (vset1 pl))
          (List.zipWith sub8 (wcurr e) (vset1 1)))))

theorem step_segments (L pl lpl : Nat) (e : AExtender) :
    (_simulate_step L pl lpl e).segments = dense1 L e := rfl

theorem step_windows (L pl lpl : Nat) (e : AExtender) :
    (_simulate_step L pl lpl e).windows =
      setP (setP e.windows e.parity_bit
          (List.zipWith add8 (wcurr e) (deltav L pl lpl e)))
        (e.parity_bit ^^^ 1)
        (List.zipWith sub8 (next2v L e) (deltav L pl lpl e)) := rfl

theorem step_counter (L pl lpl : Nat) (e : AExtender) :
    (_simulate_step L pl lpl e).counter =
      List.zipWith andnot8
        (List.zipWith cmpeq8
          (List.zipWith add8 (List.zipWith add8 e.counter (wcurr e))
            (deltav L pl lpl e)) (vset1 (L + 1)))
        (List.zipWith add8 (List.zipWith add8 e.counter (wcurr e))
          (deltav L pl lpl e)) := rfl

theorem vrshift_length (v : Vec8) (hv : v.length = 32) :
    (vrshift v).length = 32 := by
  rw [vrshift]
  cases v with
  | nil => simp at hv
  | cons a t =>
    simp only [List.tail_cons, List.length_append, List.length_cons,
      List.length_nil] at hv ⊢
    omega

theorem next2v_length (L : Nat) (e : AExtender) (hn : (wnext e).length = 32) :
    (next2v L e).length = 32 := by
  rw [next2v, List.length_set]
  exact vrshift_length _ hn

theorem m1v_length (L : Nat) (e : AExtender) (hc : e.counter.length = 32)
    (hw : (wcurr e).length = 32) : (m1v L e).length = 32 := by
  simp [m1v, List.length_zipWith, vset1, hc, hw]

theorem deltav_length (L pl lpl : Nat) (e : AExtender)
    (hc : e.counter.length = 32) (hw : (wcurr e).length = 32)
    (hn : (next2v L e).length = 32) : (deltav L pl lpl e).length = 32 := by
  simp [deltav, List.length_zipWith, vset1, vzero, m1v_length L e hc hw, hw, hn]

/-- How many steps ago the window lane holding dense position i was filled:
the backwards distance from the cursor position of the previous step. -/
def dWin (L t i : Nat) : Nat :=
  (t % kSegCount L + kSegCount L - 1 - i) % kSegCount L

/-- Whether dense position i is currently held inside the shift-register
window after t steps, so that its dense entry is stale: the window keeps the
positions of the last min t kSaturationCount insertions. -/
def residentB (L t i : Nat) : Bool :=
  decide (dWin L t i < min t (kSatCount L))

/-- The total number of blocks tracked by the vectorized state: dense
entries outside the resident window plus all lanes of both window
registers. -/
def windowMass (L : Nat) (e : AExtender) : Nat :=
  Finset.sum (Finset.range (kSegCount L))
    (fun i => if residentB L e.steps i then 0 else e.segments.getD i 0)
    + (getP e.windows 0).sum + (getP e.windows 1).sum

theorem dWin_lt (L t i : Nat) : dWin L t i < kSegCount L :=
  Nat.mod_lt _ (kSeg_pos L)

theorem mod_succ_mod (L a : Nat) :
    (a % kSegCount L + 1) % kSegCount L = (a + 1) % kSegCount L := by
  have hn := kSeg_ge2 L
  conv_rhs => rw [Nat.add_mod]
  rw [Nat.mod_eq_of_lt (show (1 : Nat) < kSegCount L by omega)]

theorem dWin_succ (L t i : Nat) (hi : i < kSegCount L) :
    dWin L (t + 1) i = (dWin L t i + 1) % kSegCount L := by
  have hn := kSeg_ge2 L
  have hp : t % kSegCount L < kSegCount L := Nat.mod_lt _ (kSeg_pos L)
  rw [dWin, dWin, mod_succ_mod]
  rw [show t % kSegCount L + kSegCount L - 1 - i + 1
    = t % kSegCount L + kSegCount L - i from by omega]
  rcases Nat.lt_or_ge (t % kSegCount L + 1) (kSegCount L) with hlt | hge
  · rw [← mod_succ_mod L t, Nat.mod_eq_of_lt hlt]
    congr 1
    omega
  · have heq : t % kSegCount L + 1 = kSegCount L := by omega
    rw [← mod_succ_mod L t, heq, Nat.mod_self]
    rw [show 0 + kSegCount L - 1 - i = kSegCount L - 1 - i from by omega]
    rw [Nat.mod_eq_of_lt (show kSegCount L - 1 - i < kSegCount L by omega)]
    rw [show t % kSegCount L + kSegCount L - i
      = kSegCount L + (kSegCount L - 1 - i) from by omega]
    rw [Nat.add_mod_left]
    exact (Nat.mod_eq_of_lt (show kSegCount L - 1 - i < kSegCount L by omega)).symm

theorem dWin_self (L t : Nat) : dWin L t (t % kSegCount L) = kSegCount L - 1 := by
  have hn := kSeg_pos L
  have hp : t % kSegCount L < kSegCount L := Nat.mod_lt _ hn
  rw [dWin, show t % kSegCount L + kSegCount L - 1 - t % kSegCount L
    = kSegCount L - 1 from by omega]
  exact Nat.mod_eq_of_lt (by omega)

theorem dWin_inj (L t i j : Nat) (hi : i < kSegCount L) (hj : j < kSegCount L)
    (h : dWin L t i = dWin L t j) : i = j := by
  suffices H : ∀ a b : Nat, a < kSegCount L → b < kSegCount L → a ≤ b →
      dWin L t a = dWin L t b → a = b by
    rcases Nat.le_total i j with hle | hle
    · exact H i j hi hj hle h
    · exact (H j i hj hi hle h.symm).symm
  intro a b ha hb hab hd
  have hn := kSeg_pos L
  have hp : t % kSegCount L < kSegCount L := Nat.mod_lt _ hn
  rw [dWin, dWin] at hd
  have hmod : Nat.ModEq (kSegCount L) (t % kSegCount L + kSegCount L - 1 - b)
      (t % kSegCount L + kSegCount L - 1 - a) := hd.symm
  have hdvd := (Nat.modEq_iff_dvd' (by omega)).mp hmod
  rw [show t % kSegCount L + kSegCount L - 1 - a
    - (t % kSegCount L + kSegCount L - 1 - b) = b - a from by omega] at hdvd
  have := Nat.eq_zero_of_dvd_of_lt hdvd
  omega

theorem dWin_flush (L t : Nat) :
    dWin L t ((t % kSegCount L + (kSegCount L - kSatCount L)) % kSegCount L)
      = kSatCount L - 1 := by
  have hn := kSeg_pos L
  have h1 := kSat_le_kSeg L
  have h2 := kSat_pos L
  have hp : t % kSegCount L < kSegCount L := Nat.mod_lt _ hn
  rcases Nat.lt_or_ge (t % kSegCount L + (kSegCount L - kSatCount L))
    (kSegCount L) with hlt | hge
  · rw [dWin, Nat.mod_eq_of_lt hlt]
    rw [show t % kSegCount L + kSegCount L - 1
      - (t % kSegCount L + (kSegCount L - kSatCount L))
      = kSatCount L - 1 from by omega]
    exact Nat.mod_eq_of_lt (by omega)
  · rw [dWin, Nat.mod_eq_sub_mod hge]
    rw [Nat.mod_eq_of_lt (show t % kSegCount L + (kSegCount L - kSatCount L)
      - kSegCount L < kSegCount L by omega)]
    rw [show t % kSegCount L + kSegCount L - 1
      - (t % kSegCount L + (kSegCount L - kSatCount L) - kSegCount L)
      = kSegCount L + (kSatCount L - 1) from by omega]
    rw [Nat.add_mod_left]
    exact Nat.mod_eq_of_lt (by omega)

theorem residentB_self (L t : Nat) (h : min t (kSatCount L) < kSegCount L) :
    residentB L t (t % kSegCount L) = false := by
  simp only [residentB, dWin_self, decide_eq_false_iff_not]
  rcases Nat.le_total t (kSatCount L) with h2 | h2
  · rw [min_eq_left h2] at h ⊢
    omega
  · rw [min_eq_right h2] at h ⊢
    omega

theorem residentB_succ_self (L t : Nat) :
    residentB L (t + 1) (t % kSegCount L) = true := by
  have hn := kSeg_pos L
  have hd := dWin_succ L t (t % kSegCount L) (Nat.mod_lt _ hn)
  rw [dWin_self] at hd
  have h0 : dWin L (t + 1) (t % kSegCount L) = 0 := by
    rw [hd, show kSegCount L - 1 + 1 = kSegCount L from by omega, Nat.mod_self]
  simp only [residentB, h0, decide_eq_true_eq]
  have := kSat_pos L
  rcases Nat.le_total (t + 1) (kSatCount L) with h2 | h2
  · rw [min_eq_left h2]
    omega
  · rw [min_eq_right h2]
    omega

theorem residentB_succ_lt (L t i : Nat) (hlt : t < kSatCount L)
    (hi : i < kSegCount L) (hne : i ≠ t % kSegCount L) :
    residentB L (t + 1) i = residentB L t i := by
  have hk := kSat_le_kSeg L
  have hdlt := dWin_lt L t i
  have hdne : dWin L t i ≠ kSegCount L - 1 := by
    intro h
    exact hne (dWin_inj L t i (t % kSegCount L) hi (Nat.mod_lt _ (kSeg_pos L))
      (by rw [h, dWin_self]))
  have hstep : dWin L (t + 1) i = dWin L t i + 1 := by
    rw [dWin_succ L t i hi, Nat.mod_eq_of_lt (by omega)]
  simp only [residentB, hstep]
  rw [min_eq_left (show t + 1 ≤ kSatCount L from by omega),
    min_eq_left (show t ≤ kSatCount L from by omega)]
  exact decide_eq_decide.mpr (by omega)

theorem residentB_flush_res (L t : Nat) (hge : kSatCount L ≤ t) :
    residentB L t ((t % kSegCount L + (kSegCount L - kSatCount L))
      % kSegCount L) = true := by
  have h1 := kSat_pos L
  simp only [residentB, dWin_flush, decide_eq_true_eq]
  rw [min_eq_right hge]
  omega

theorem residentB_flush_succ (L t : Nat) (hge : kSatCount L ≤ t)
    (hlt : kSatCount L < kSegCount L) :
    residentB L (t + 1) ((t % kSegCount L + (kSegCount L - kSatCount L))
      % kSegCount L) = false := by
  have h1 := kSat_pos L
  have hi : (t % kSegCount L + (kSegCount L - kSatCount L)) % kSegCount L
      < kSegCount L := Nat.mod_lt _ (kSeg_pos L)
  have hd := dWin_succ L t _ hi
  rw [dWin_flush] at hd
  have hval : dWin L (t + 1) ((t % kSegCount L + (kSegCount L - kSatCount L))
      % kSegCount L) = kSatCount L := by
    rw [hd, show kSatCount L - 1 + 1 = kSatCount L from by omega,
      Nat.mod_eq_of_lt hlt]
  simp only [residentB, hval, decide_eq_false_iff_not]
  have := min_le_right (t + 1) (kSatCount L)
  omega

theorem residentB_succ_ge (L t i : Nat) (hge : kSatCount L ≤ t)
    (hi : i < kSegCount L) (hne1 : i ≠ t % kSegCount L)
    (hne2 : i ≠ (t % kSegCount L + (kSegCount L - kSatCount L)) % kSegCount L) :
    residentB L (t + 1) i = residentB L t i := by
  have h1 := kSat_pos L
  have hdlt := dWin_lt L t i
  have hdne1 : dWin L t i ≠ kSegCount L - 1 := by
    intro h
    exact hne1 (dWin_inj L t i (t % kSegCount L) hi (Nat.mod_lt _ (kSeg_pos L))
      (by rw [h, dWin_self]))
  have hdne2 : dWin L t i ≠ kSatCount L - 1 := by
    intro h
    exact hne2 (dWin_inj L t i _ hi (Nat.mod_lt _ (kSeg_pos L))
      (by rw [h, dWin_flush]))
  have hstep : dWin L (t + 1) i = dWin L t i + 1 := by
    rw [dWin_succ L t i hi, Nat.mod_eq_of_lt (by omega)]
  simp only [residentB, hstep]
  rw [min_eq_right hge, min_eq_right (show kSatCount L ≤ t + 1 from by omega)]
  exact decide_eq_decide.mpr (by omega)

theorem residentB_sat (L t i : Nat) (hge : kSatCount L ≤ t)
    (heq : kSatCount L = kSegCount L) : residentB L t i = true := by
  have := dWin_lt L t i
  simp only [residentB, decide_eq_true_eq]
  rw [min_eq_right hge, heq]
  omega

/-- Advancing one unsaturated step hides the dense entry at the cursor. -/
theorem massDense_lt (L t : Nat) (d : List Nat) (hlt : t < kSatCount L) :
    Finset.sum (Finset.range (kSegCount L))
        (fun i => if residentB L t i then 0 else d.getD i 0)
      = Finset.sum (Finset.range (kSegCount L))
          (fun i => if residentB L (t + 1) i then 0 else d.getD i 0)
        + d.getD (t % kSegCount L) 0 := by
  have hk := kSat_le_kSeg L
  have hmem : t % kSegCount L ∈ Finset.range (kSegCount L) :=
    Finset.mem_range.mpr (Nat.mod_lt _ (kSeg_pos L))
  rw [Finset.sum_eq_sum_diff_singleton_add hmem,
    Finset.sum_eq_sum_diff_singleton_add hmem
      (f := fun i => if residentB L (t + 1) i then 0 else d.getD i 0)]
  rw [residentB_self L t (by rw [min_eq_left (by omega)]; omega),
    residentB_succ_self L t]
  have hcong : Finset.sum (Finset.range (kSegCount L) \ {t % kSegCount L})
      (fun i => if residentB L t i then 0 else d.getD i 0)
      = Finset.sum (Finset.range (kSegCount L) \ {t % kSegCount L})
        (fun i => if residentB L (t + 1) i then 0 else d.getD i 0) := by
    apply Finset.sum_congr rfl
    intro i hi
    rw [Finset.mem_sdiff, Finset.mem_range, Finset.mem_singleton] at hi
    rw [residentB_succ_lt L t i hlt hi.1 hi.2]
  rw [hcong]
  simp

/-- Advancing one saturated step (with a strictly larger dense array than
the window) restores the flushed entry and hides the entry at the cursor. -/
theorem massDense_flush (L t : Nat) (d : List Nat) (v : Nat)
    (hge : kSatCount L ≤ t) (hlt : kSatCount L < kSegCount L)
    (hdl : d.length = kSegCount L) :
    Finset.sum (Finset.range (kSegCount L))
        (fun i => if residentB L t i then 0 else d.getD i 0) + v
      = Finset.sum (Finset.range (kSegCount L))
          (fun i => if residentB L (t + 1) i then 0 else
            ((d.set ((t % kSegCount L + (kSegCount L - kSatCount L))
              % kSegCount L) v).getD i 0))
        + d.getD (t % kSegCount L) 0 := by
  have h1 := kSat_pos L
  have hpmem : t % kSegCount L ∈ Finset.range (kSegCount L) :=
    Finset.mem_range.mpr (Nat.mod_lt _ (kSeg_pos L))
  have hqlt : (t % kSegCount L + (kSegCount L - kSatCount L)) % kSegCount L
      < kSegCount L := Nat.mod_lt _ (kSeg_pos L)
  have hqnep : (t % kSegCount L + (kSegCount L - kSatCount L)) % kSegCount L
      ≠ t % kSegCount L := by
    intro h
    have h2 := dWin_flush L t
    rw [h, dWin_self] at h2
    have := kSat_le_kSeg L
    omega
  have hqmem : (t % kSegCount L + (kSegCount L - kSatCount L)) % kSegCount L
      ∈ Finset.range (kSegCount L) \ {t % kSegCount L} := by
    rw [Finset.mem_sdiff, Finset.mem_range, Finset.mem_singleton]
    exact ⟨hqlt, hqnep⟩
  rw [Finset.sum_eq_sum_diff_singleton_add hpmem,
    Finset.sum_eq_sum_diff_singleton_add hpmem
      (f := fun i => if residentB L (t + 1) i then 0 else
        ((d.set ((t % kSegCount L + (kSegCount L - kSatCount L))
          % kSegCount L) v).getD i 0))]
  rw [Finset.sum_eq_sum_diff_singleton_add hqmem,
    Finset.sum_eq_sum_diff_singleton_add hqmem
      (f := fun i => if residentB L (t + 1) i then 0 else
        ((d.set ((t % kSegCount L + (kSegCount L - kSatCount L))
          % kSegCount L) v).getD i 0))]
  rw [residentB_self L t (by rw [min_eq_right hge]; omega),
    residentB_succ_self L t, residentB_flush_res L t hge,
    residentB_flush_succ L t hge hlt]
  rw [getD_set_self d _ v (by omega)]
  have hcong : Finset.sum
      ((Finset.range (kSegCount L) \ {t % kSegCount L})
        \ {(t % kSegCount L + (kSegCount L - kSatCount L)) % kSegCount L})
      (fun i => if residentB L t i then 0 else d.getD i 0)
      = Finset.sum
        ((Finset.range (kSegCount L) \ {t % kSegCount L})
          \ {(t % kSegCount L + (kSegCount L - kSatCount L)) % kSegCount L})
        (fun i => if residentB L (t + 1) i then 0 else
          ((d.set ((t % kSegCount L + (kSegCount L - kSatCount L))
            % kSegCount L) v).getD i 0)) := by
    apply Finset.sum_congr rfl
    intro i hi
    rw [Finset.mem_sdiff, Finset.mem_sdiff, Finset.mem_range,
      Finset.mem_singleton, Finset.mem_singleton] at hi
    rw [residentB_succ_ge L t i hge hi.1.1 hi.1.2 hi.2,
      getD_set_ne d _ i v (Ne.symm hi.2)]
  rw [hcong]
  simp
  omega

/-- When the window covers the whole dense array every position is resident
and the dense contribution to the mass vanishes. -/
theorem massDense_sat (L t : Nat) (d : List Nat) (hge : kSatCount L ≤ t)
    (heq : kSatCount L = kSegCount L) :
    Finset.sum (Finset.range (kSegCount L))
      (fun i => if residentB L t i then 0 else d.getD i 0) = 0 := by
  apply Finset.sum_eq_zero
  intro i _
  rw [residentB_sat L t i hge heq]
  rfl

theorem vset1_length (x : Nat) : (vset1 x).length = 32 := by
  simp [vset1]

theorem vzero_length : vzero.length = 32 := by
  simp [vzero]

theorem vset1_getD (x j : Nat) (hj : j < 32) : (vset1 x).getD j 0 = x % 256 :=
  getD_replicate 32 (x % 256) j hj

theorem vzero_getD (j : Nat) (hj : j < 32) : vzero.getD j 0 = 0 :=
  getD_replicate 32 0 j hj

/-- Reading one lane of the delta register gives the scalar laneDelta of
that lane's inputs. -/
theorem deltav_getD (L pl lpl : Nat) (e : AExtender) (j : Nat)
    (hc : e.counter.length = 32) (hw : (wcurr e).length = 32)
    (hn : (next2v L e).length = 32) (hj : j < 32) :
    (deltav L pl lpl e).getD j 0 =
      laneDelta ((wcurr e).getD j 0) ((next2v L e).getD j 0)
        (blendv8 (pl % 256) (lpl % 256) ((m1v L e).getD j 0))
        ((m1v L e).getD j 0) := by
  have hm := m1v_length L e hc hw
  have l_eq1 : (List.zipWith cmpeq8 (wcurr e) (vset1 1)).length = 32 := by
    simp [List.length_zipWith, hw, vset1_length]
  have l_pd1 : (List.zipWith andnot8 (m1v L e) (next2v L e)).length = 32 := by
    simp [List.length_zipWith, hm, hn]
  have l_pull : (List.zipWith and8 (List.zipWith cmpeq8 (wcurr e) (vset1 1))
      (List.zipWith andnot8 (m1v L e) (next2v L e))).length = 32 := by
    simp [List.length_zipWith, l_eq1, l_pd1]
  have l_qv : (List.zipWith (fun m a => blendv8 a (lpl % 256) m) (m1v L e)
      (vset1 pl)).length = 32 := by
    simp [List.length_zipWith, hm, vset1_length]
  have l_cm1 : (List.zipWith sub8 (wcurr e) (vset1 1)).length = 32 := by
    simp [List.length_zipWith, hw, vset1_length]
  have l_pd1b : (List.zipWith min8
      (List.zipWith (fun m a => blendv8 a (lpl % 256) m) (m1v L e) (vset1 pl))
      (List.zipWith sub8 (wcurr e) (vset1 1))).length = 32 := by
    simp [List.length_zipWith, l_qv, l_cm1]
  have l_pd2 : (List.zipWith andnot8
      (List.zipWith cmpeq8 (wcurr e) (vset1 1))
      (List.zipWith min8
        (List.zipWith (fun m a => blendv8 a (lpl % 256) m) (m1v L e) (vset1 pl))
        (List.zipWith sub8 (wcurr e) (vset1 1)))).length = 32 := by
    simp [List.length_zipWith, l_eq1, l_pd1b]
  have l_eq0 : (List.zipWith cmpeq8 (wcurr e) vzero).length = 32 := by
    simp [List.length_zipWith, hw, vzero_length]
  have l_push : (List.zipWith andnot8
      (List.zipWith cmpeq8 (wcurr e) vzero)
      (List.zipWith andnot8 (List.zipWith cmpeq8 (wcurr e) (vset1 1))
        (List.zipWith min8
          (List.zipWith (fun m a => blendv8 a (lpl % 256) m) (m1v L e) (vset1 pl))
          (List.zipWith sub8 (wcurr e) (vset1 1))))).length = 32 := by
    simp [List.length_zipWith, l_eq0, l_pd2]
  rw [deltav, laneDelta]
  rw [getD_zipWith sub8 _ _ j (by rw [l_pull]; exact hj) (by rw [l_push]; exact hj)]
  rw [getD_zipWith and8 _ _ j (by rw [l_eq1]; exact hj) (by rw [l_pd1]; exact hj)]
  rw [getD_zipWith cmpeq8 (wcurr e) (vset1 1) j (by rw [hw]; exact hj)
    (by rw [vset1_length]; exact hj)]
  rw [getD_zipWith andnot8 (m1v L e) (next2v L e) j (by rw [hm]; exact hj)
    (by rw [hn]; exact hj)]
  rw [getD_zipWith andnot8 _ _ j (by rw [l_eq0]; exact hj) (by rw [l_pd2]; exact hj)]
  rw [getD_zipWith cmpeq8 (wcurr e) vzero j (by rw [hw]; exact hj)
    (by rw [vzero_length]; exact hj)]
  rw [getD_zipWith andnot8 _ _ j (by rw [l_eq1]; exact hj) (by rw [l_pd1b]; exact hj)]
  rw [getD_zipWith min8 _ _ j (by rw [l_qv]; exact hj) (by rw [l_cm1]; exact hj)]
  rw [getD_zipWith (fun m a => blendv8 a (lpl % 256) m) (m1v L e) (vset1 pl) j
    (by rw [hm]; exact hj) (by rw [vset1_length]; exact hj)]
  rw [getD_zipWith sub8 (wcurr e) (vset1 1) j (by rw [hw]; exact hj)
    (by rw [vset1_length]; exact hj)]
  rw [getD_zipWith cmpeq8 (wcurr e) (vset1 1) j (by rw [hw]; exact hj)
    (by rw [vset1_length]; exact hj)]
  rw [vset1_getD 1 j hj, vset1_getD pl j hj, vzero_getD j hj]

/-- The main invariant of the vectorized engine: shapes of the registers,
cursor and parity bookkeeping, lanes not yet populated or beyond the window
half are zero, and the total mass equals kLength + 1. -/
structure AInv (L : Nat) (e : AExtender) : Prop where
  hlen : e.segments.length = kSegCount L
  hw0 : e.windows.a0.length = 32
  hw1 : e.windows.a1.length = 32
  hcnt : e.counter.length = 32
  hp : e.p = e.steps % kSegCount L
  hparity : e.parity_bit = e.steps % 2
  hnd : ∀ j, e.steps + 2 * j < kSatCount L →
    (getP e.windows ((e.steps + 1) % 2)).getD j 0 = 0
  hcd : ∀ j, e.steps + 2 * j + 1 < kSatCount L →
    (getP e.windows (e.steps % 2)).getD j 0 = 0
  hhi : ∀ j, kSatCount L / 2 ≤ j →
    e.windows.a0.getD j 0 = 0 ∧ e.windows.a1.getD j 0 = 0
  hmass : windowMass L e = L + 1

theorem residentB_zero (L i : Nat) : residentB L 0 i = false := by
  simp [residentB]

theorem create_getD (L i : Nat) (hi : i < kSegCount L) :
    (create L).segments.getD i 0 = if i ≤ L then 1 else 0 := by
  rw [create]
  rw [List.getD_eq_getElem?_getD, List.getElem?_map, List.getElem?_range hi]
  rfl

theorem vzero_getD_all (j : Nat) : vzero.getD j 0 = 0 := by
  rcases Nat.lt_or_ge j 32 with h | h
  · exact vzero_getD j h
  · exact getD_of_len_le _ j (by rw [vzero_length]; omega)

theorem AInv_create (L : Nat) : AInv L (create L) := by
  refine ⟨?_, rfl, rfl, rfl, rfl, rfl, ?_, ?_, ?_, ?_⟩
  · rw [create]
    simp
  · intro j _
    show vzero.getD j 0 = 0
    exact vzero_getD_all j
  · intro j _
    show vzero.getD j 0 = 0
    exact vzero_getD_all j
  · intro j _
    exact ⟨vzero_getD_all j, vzero_getD_all j⟩
  · rw [windowMass]
    have hzs : vzero.sum = 0 := by simp [vzero]
    have hfilter : Finset.filter (fun i => i ≤ L) (Finset.range (kSegCount L))
        = Finset.range (L + 1) := by
      ext i
      have := kSeg_ge L
      simp only [Finset.mem_filter, Finset.mem_range]
      omega
    have hD : Finset.sum (Finset.range (kSegCount L))
        (fun i => if residentB L (create L).steps i then 0
          else (create L).segments.getD i 0) = L + 1 := by
      have h1 : ∀ i ∈ Finset.range (kSegCount L),
          (if residentB L (create L).steps i then 0
            else (create L).segments.getD i 0)
          = (if i ≤ L then (1 : Nat) else 0) := by
        intro i hi
        rw [Finset.mem_range] at hi
        rw [show (create L).steps = 0 from rfl, residentB_zero]
        simp only [Bool.false_eq_true, if_false]
        exact create_getD L i hi
      rw [Finset.sum_congr rfl h1, Finset.sum_boole, hfilter]
      simp
    rw [hD, show getP (create L).windows 0 = vzero from rfl,
      show getP (create L).windows 1 = vzero from rfl, hzs]

/-- One vectorized step preserves the invariant, provided the extender mass
fits into a byte lane. -/
theorem AInv_step (L pl lpl : Nat) (hL : L + 1 ≤ 255) (e : AExtender)
    (hinv : AInv L e) : AInv L (_simulate_step L pl lpl e) := by
  obtain ⟨hlen, hw0, hw1, hcnt, hp, hparity, hnd, hcd, hhi, hmass⟩ := hinv
  have hksat := kSat_pos L
  have hk64 := kSat_le_64 L
  have hkk := kSat_le_kSeg L
  have hkeven := kSat_even L
  have hnpos := kSeg_pos L
  have hopcases : e.parity_bit = 0 ∨ e.parity_bit = 1 := by
    rw [hparity]; omega
  have hwc : (wcurr e).length = 32 := getP_length _ _ hw0 hw1
  have hwn : (wnext e).length = 32 := getP_length _ _ hw0 hw1
  have hd1len : (dense1 L e).length = kSegCount L := by
    rw [dense1]
    split
    · rw [List.length_set]; exact hlen
    · exact hlen
  have hn2len : (next2v L e).length = 32 := next2v_length L e hwn
  have hdlen : (deltav L pl lpl e).length = 32 :=
    deltav_length L pl lpl e hcnt hwc hn2len
  have hwcurr_eq : wcurr e = getP e.windows (e.steps % 2) := by
    rw [wcurr, hparity]
  have hwnext_eq : wnext e = getP e.windows ((e.steps + 1) % 2) := by
    rw [wnext, hparity, mod_two_xor_one]
  have hwc_hi : ∀ j, kSatCount L / 2 ≤ j → (wcurr e).getD j 0 = 0 := by
    intro j hj
    rw [wcurr, getP]
    split
    · exact (hhi j hj).1
    · exact (hhi j hj).2
  have hwn_hi : ∀ j, kSatCount L / 2 ≤ j → (wnext e).getD j 0 = 0 := by
    intro j hj
    rw [wnext, getP]
    split
    · exact (hhi j hj).1
    · exact (hhi j hj).2
  set c2 := List.zipWith add8 (wcurr e) (deltav L pl lpl e) with hc2def
  set n3 := List.zipWith sub8 (next2v L e) (deltav L pl lpl e) with hn3def
  have hc2len : c2.length = 32 := by
    rw [hc2def, List.length_zipWith, hwc, hdlen]
    exact Nat.min_self 32
  have hn3len : n3.length = 32 := by
    rw [hn3def, List.length_zipWith, hn2len, hdlen]
    exact Nat.min_self 32
  set D := Finset.sum (Finset.range (kSegCount L))
    (fun i => if residentB L e.steps i then 0 else e.segments.getD i 0)
    with hDdef
  have hsplit := duo_sum_split e.windows e.parity_bit hopcases
  have hM : D + (wcurr e).sum + (wnext e).sum = L + 1 := by
    rw [windowMass] at hmass
    rw [wcurr, wnext]
    omega
  have hins_DN : (dense1 L e).getD e.p 0 ≤ D + (wnext e).sum := by
    rcases Nat.lt_or_ge e.steps (kSatCount L) with hA | hB
    · rw [dense1, if_neg (by omega)]
      have hres : residentB L e.steps (e.steps % kSegCount L) = false :=
        residentB_self L e.steps (by rw [min_eq_left (by omega)]; omega)
      have hb := Finset.single_le_sum
        (f := fun i => if residentB L e.steps i then 0 else e.segments.getD i 0)
        (fun i _ => Nat.zero_le _)
        (Finset.mem_range.mpr (Nat.mod_lt e.steps hnpos))
      simp only [hres, Bool.false_eq_true, if_false] at hb
      rw [hp]
      omega
    · rcases Nat.lt_or_ge (kSatCount L) (kSegCount L) with hB1 | hB2
      · rw [dense1, if_pos hB]
        have hqnep : (e.p + (kSegCount L - kSatCount L)) % kSegCount L ≠ e.p := by
          rw [hp]
          intro hcon
          have h2 := dWin_flush L e.steps
          rw [hcon, dWin_self] at h2
          omega
        rw [getD_set_ne _ _ _ _ hqnep]
        have hres : residentB L e.steps (e.steps % kSegCount L) = false :=
          residentB_self L e.steps (by rw [min_eq_right hB]; omega)
        have hb := Finset.single_le_sum
          (f := fun i => if residentB L e.steps i then 0 else e.segments.getD i 0)
          (fun i _ => Nat.zero_le _)
          (Finset.mem_range.mpr (Nat.mod_lt e.steps hnpos))
        simp only [hres, Bool.false_eq_true, if_false] at hb
        rw [hp]
        omega
      · rw [dense1, if_pos hB]
        have hq : (e.p + (kSegCount L - kSatCount L)) % kSegCount L = e.p := by
          rw [show kSegCount L - kSatCount L = 0 from by omega, Nat.add_zero, hp]
          exact Nat.mod_eq_of_lt (Nat.mod_lt _ hnpos)
        rw [hq, getD_set_self _ _ _ (by rw [hlen, hp]; exact Nat.mod_lt _ hnpos)]
        rw [headD_eq_getD]
        have := getD_le_sum (wnext e) 0
        omega
  have hpair_le : ∀ j, (wcurr e).getD j 0 + (next2v L e).getD j 0 ≤ 255 := by
    intro j
    have h1 : (wcurr e).getD j 0 ≤ (wcurr e).sum := getD_le_sum _ _
    by_cases hjh : j = kSatCount L / 2 - 1
    · subst hjh
      rw [next2v, getD_set_self _ _ _ (by rw [vrshift_length _ hwn]; omega)]
      have h2 : (dense1 L e).getD e.p 0 % 256 ≤ (dense1 L e).getD e.p 0 :=
        Nat.mod_le _ _
      omega
    · rw [next2v, getD_set_ne _ _ _ _ (Ne.symm hjh), getD_vrshift]
      have h2 : (wnext e).getD (j + 1) 0 ≤ (wnext e).sum := getD_le_sum _ _
      omega
  have hpairsum : c2.sum + n3.sum = (wcurr e).sum + (next2v L e).sum := by
    rw [hc2def, hn3def]
    rw [list_sum_getD (List.zipWith add8 (wcurr e) (deltav L pl lpl e)),
      list_sum_getD (List.zipWith sub8 (next2v L e) (deltav L pl lpl e)),
      list_sum_getD (wcurr e), list_sum_getD (next2v L e)]
    rw [List.length_zipWith, List.length_zipWith, hwc, hn2len, hdlen]
    simp only [Nat.min_self]
    rw [← Finset.sum_add_distrib, ← Finset.sum_add_distrib]
    apply Finset.sum_congr rfl
    intro j hj
    have hj32 : j < 32 := Finset.mem_range.mp hj
    rw [getD_zipWith add8 _ _ j (by rw [hwc]; exact hj32)
      (by rw [hdlen]; exact hj32)]
    rw [getD_zipWith sub8 _ _ j (by rw [hn2len]; exact hj32)
      (by rw [hdlen]; exact hj32)]
    rw [deltav_getD L pl lpl e j hcnt hwc hn2len hj32]
    exact laneDelta_conserve _ _ _ _
      (blendv8_le _ _ _ (by omega) (by omega)) (hpair_le j)
  have hvr32 : (vrshift (wnext e)).length = 32 := vrshift_length _ hwn
  have hdisp : (vrshift (wnext e)).getD (kSatCount L / 2 - 1) 0 = 0 := by
    rw [getD_vrshift]
    exact hwn_hi _ (by omega)
  have hn2sum : (next2v L e).sum
      = (vrshift (wnext e)).sum + (dense1 L e).getD e.p 0 % 256 := by
    have hs := fallback.sum_set_nat (vrshift (wnext e)) (kSatCount L / 2 - 1)
      ((dense1 L e).getD e.p 0 % 256) (by rw [hvr32]; omega)
    rw [hdisp] at hs
    rw [next2v]
    omega
  have hvrsum : (vrshift (wnext e)).sum + (wnext e).getD 0 0 = (wnext e).sum := by
    have hs := sum_vrshift (wnext e) (by intro hnil; rw [hnil] at hwn; simp at hwn)
    rw [headD_eq_getD] at hs
    exact hs
  have hins255 : (dense1 L e).getD e.p 0 ≤ 255 := by omega
  have hins : (dense1 L e).getD e.p 0 % 256 = (dense1 L e).getD e.p 0 :=
    Nat.mod_eq_of_lt (by omega)
  refine ⟨?_, ?_, ?_, ?_, ?_, ?_, ?_, ?_, ?_, ?_⟩
  · rw [step_segments]
    exact hd1len
  · rw [step_windows]
    exact (setP_lengths e.windows e.parity_bit hopcases c2 n3 hc2len hn3len).1
  · rw [step_windows]
    exact (setP_lengths e.windows e.parity_bit hopcases c2 n3 hc2len hn3len).2
  · rw [step_counter]
    simp [List.length_zipWith, vset1_length, hcnt, hwc, hdlen]
  · rw [step_p, step_steps, hp, mod_succ_mod]
  · rw [step_parity, step_steps, hparity, mod_two_xor_one]
  · intro j hj
    rw [step_steps] at hj
    rw [step_steps]
    have hj32 : j < 32 := by omega
    have hidx2 : (e.steps + 1 + 1) % 2 = e.parity_bit := by
      rw [hparity]; omega
    rw [step_windows, hidx2,
      (getP_after e.windows e.parity_bit hopcases c2 n3).1]
    rw [hc2def, getD_zipWith add8 _ _ j (by rw [hwc]; exact hj32)
      (by rw [hdlen]; exact hj32)]
    have hcz : (wcurr e).getD j 0 = 0 := by
      rw [hwcurr_eq]
      exact hcd j (by omega)
    rw [deltav_getD L pl lpl e j hcnt hwc hn2len hj32, hcz, laneDelta_zero]
    rfl
  · intro j hj
    rw [step_steps] at hj
    rw [step_steps]
    have hj32 : j < 32 := by omega
    have hidx2 : (e.steps + 1) % 2 = e.parity_bit ^^^ 1 := by
      rw [hparity, mod_two_xor_one]
    rw [step_windows, hidx2,
      (getP_after e.windows e.parity_bit hopcases c2 n3).2]
    rw [hn3def, getD_zipWith sub8 _ _ j (by rw [hn2len]; exact hj32)
      (by rw [hdlen]; exact hj32)]
    have hcz : (wcurr e).getD j 0 = 0 := by
      rw [hwcurr_eq]
      exact hcd j (by omega)
    have hjne : j ≠ kSatCount L / 2 - 1 := by omega
    have hnz : (next2v L e).getD j 0 = 0 := by
      rw [next2v, getD_set_ne _ _ _ _ (Ne.symm hjne), getD_vrshift]
      rw [hwnext_eq]
      exact hnd (j + 1) (by omega)
    rw [deltav_getD L pl lpl e j hcnt hwc hn2len hj32, hcz, laneDelta_zero, hnz]
    rfl
  · intro j hjhalf
    have hc2z : c2.getD j 0 = 0 := by
      rcases Nat.lt_or_ge j 32 with hj32 | hj32
      · rw [hc2def, getD_zipWith add8 _ _ j (by rw [hwc]; exact hj32)
          (by rw [hdlen]; exact hj32)]
        rw [deltav_getD L pl lpl e j hcnt hwc hn2len hj32, hwc_hi j hjhalf,
          laneDelta_zero]
        rfl
      · exact getD_of_len_le _ j (by rw [hc2len]; omega)
    have hn3z : n3.getD j 0 = 0 := by
      rcases Nat.lt_or_ge j 32 with hj32 | hj32
      · rw [hn3def, getD_zipWith sub8 _ _ j (by rw [hn2len]; exact hj32)
          (by rw [hdlen]; exact hj32)]
        have hjne : j ≠ kSatCount L / 2 - 1 := by omega
        have hnz : (next2v L e).getD j 0 = 0 := by
          rw [next2v, getD_set_ne _ _ _ _ (Ne.symm hjne), getD_vrshift]
          exact hwn_hi (j + 1) (by omega)
        rw [deltav_getD L pl lpl e j hcnt hwc hn2len hj32, hwc_hi j hjhalf,
          laneDelta_zero, hnz]
        rfl
      · exact getD_of_len_le _ j (by rw [hn3len]; omega)
    rw [step_windows]
    rcases hopcases with hop | hop <;> rw [hop]
    · exact ⟨hc2z, hn3z⟩
    · exact ⟨hn3z, hc2z⟩
  · rw [windowMass, step_steps, step_segments, step_windows]
    rw [← hc2def, ← hn3def]
    have hsum2 := duo_sum_after e.windows e.parity_bit hopcases c2 n3
    rcases Nat.lt_or_ge e.steps (kSatCount L) with hA | hB
    · have hdeq : dense1 L e = e.segments := by
        rw [dense1, if_neg (by omega)]
      have hmd := massDense_lt L e.steps e.segments hA
      have hn0 : (wnext e).getD 0 0 = 0 := by
        rw [hwnext_eq]
        exact hnd 0 (by omega)
      have hdval : (dense1 L e).getD e.p 0
          = e.segments.getD (e.steps % kSegCount L) 0 := by
        rw [hdeq, hp]
      rw [hdeq]
      omega
    · rcases Nat.lt_or_ge (kSatCount L) (kSegCount L) with hB1 | hB2
      · have hdeq : dense1 L e = e.segments.set
            ((e.steps % kSegCount L + (kSegCount L - kSatCount L))
              % kSegCount L) ((wnext e).getD 0 0) := by
          rw [dense1, if_pos hB, hp, headD_eq_getD]
        have hmd := massDense_flush L e.steps e.segments
          ((wnext e).getD 0 0) hB hB1 hlen
        have hdval : (dense1 L e).getD e.p 0
            = e.segments.getD (e.steps % kSegCount L) 0 := by
          rw [hdeq, hp]
          apply getD_set_ne
          intro hcon
          have h2 := dWin_flush L e.steps
          rw [hcon, dWin_self] at h2
          omega
        rw [hdeq]
        omega
      · have hkeq : kSatCount L = kSegCount L := by omega
        have hD0 : Finset.sum (Finset.range (kSegCount L))
            (fun i => if residentB L e.steps i then 0 else e.segments.getD i 0)
            = 0 := massDense_sat L e.steps e.segments hB hkeq
        have hD0s : Finset.sum (Finset.range (kSegCount L))
            (fun i => if residentB L (e.steps + 1) i then 0
              else (dense1 L e).getD i 0) = 0 :=
          massDense_sat L (e.steps + 1) (dense1 L e) (by omega) hkeq
        have hdval : (dense1 L e).getD e.p 0 = (wnext e).getD 0 0 := by
          rw [dense1, if_pos hB]
          have hq : (e.p + (kSegCount L - kSatCount L)) % kSegCount L = e.p := by
            rw [show kSegCount L - kSatCount L = 0 from by omega, Nat.add_zero, hp]
            exact Nat.mod_eq_of_lt (Nat.mod_lt _ hnpos)
          rw [hq, getD_set_self _ _ _ (by rw [hlen, hp]; exact Nat.mod_lt _ hnpos)]
          rw [headD_eq_getD]
        omega

/-- A full pulse of the vectorized engine succeeds from any invariant state
and preserves the invariant. -/
theorem AInv_simulate_pulse (L pl lpl : Nat) (hL : L + 1 ≤ 255)
    (e : AExtender) (h : AInv L e) :
    ∃ e2, simulate_pulse L pl lpl e = some e2 ∧ AInv L e2 := by
  have hplt : e.p < kSegCount L := by
    rw [h.hp]
    exact Nat.mod_lt _ (kSeg_pos L)
  have hfuel : kSegCount L + 1 - e.p ≤ kSegCount L + 1 := by omega
  obtain ⟨ew, hw, hP, _, _⟩ := pulseWhile_spec L pl lpl (AInv L)
    (fun s hs => AInv_step L pl lpl hL s hs) (kSegCount L + 1) e h hplt hfuel
  refine ⟨_simulate_step L pl lpl (_simulate_step L pl lpl ew), ?_, ?_⟩
  · rw [simulate_pulse, hw]
    rfl
  · exact AInv_step _ _ _ hL _ (AInv_step _ _ _ hL _ hP)

/-- Every state along a run of the vectorized engine exists and satisfies
the invariant, in particular conservation of mass. -/
theorem run_AInv (L pl lpl : Nat) (hL : L + 1 ≤ 255) :
    ∀ n, ∃ e, run L pl lpl n = some e ∧ AInv L e := by
  intro n
  induction n with
  | zero => exact ⟨create L, rfl, AInv_create L⟩
  | succ m ih =>
    obtain ⟨e, hrun, hinv⟩ := ih
    obtain ⟨e2, hp2, hinv2⟩ := AInv_simulate_pulse L pl lpl hL e hinv
    exact ⟨e2, by rw [run, hrun, Option.some_bind]; exact hp2, hinv2⟩

/-- Any state actually produced by a vectorized run satisfies the
invariant. -/
theorem run_AInv_of (L pl lpl : Nat) (hL : L + 1 ≤ 255) (n : Nat)
    (e : AExtender) (hrun : run L pl lpl n = some e) : AInv L e := by
  obtain ⟨e2, hrun2, hinv⟩ := run_AInv L pl lpl hL n
  rw [hrun] at hrun2
  obtain rfl := Option.some_inj.mp hrun2
  exact hinv

theorem zipWith_cmpeq8_self (v : Vec8) :
    (List.zipWith cmpeq8 v v).all (fun x => x = 255) = true := by
  induction v with
  | nil => rfl
  | cons a t ih => simp [cmpeq8, ih]

/-- The vectorized equality test of any state against itself answers
true. -/
theorem equals_refl (L : Nat) (e : AExtender) : equals L e e = true := by
  simp [equals]
  exact ⟨fun x _ => by simp [cmpeq8], fun x _ => by simp [cmpeq8]⟩

end avx2

/-- The outcome the driver loop of src/unnamed/part_000 reports: Done with
the final pulse count, or Loop at the pulse count where the cycle check
fired. -/
inductive SimResult where
  | done (pulses : Nat)
  | loop (pulses : Nat)
deriving DecidableEq, Repr

namespace fallback

/-- The main loop of simulate_extender of src/unnamed/part_000 over the
scalar engine, with CHECK_LOOP and FAST_LOOP_DETECTION both 1 as in
constants.h: the fast instance pulses every iteration, the slow instance on
every even pulse count, and equals of fast against slow is tested after
every pulse. With fuel; none models non-termination within the fuel, or an
engine step going wrong. Logging and timing are omitted. -/
def simulate_extender_loop (pl lpl : Nat) :
    Nat → Extender → Extender → Nat → Option SimResult
  | 0, _, _, _ => none
  | fuel + 1, fast, slow, pulses =>
    if finished fast then some (.done pulses)
    else
      match simulate_pulse pl lpl fast with
      | none => none
      | some fast2 =>
        match (if (pulses + 1) % 2 = 0 then simulate_pulse pl lpl slow
          else some slow) with
        | none => none
        | some slow2 =>
          match equals fast2 slow2 with
          | none => none
          | some true => some (.loop (pulses + 1))
          | some false => simulate_extender_loop pl lpl fuel fast2 slow2 (pulses + 1)

/-- simulate_extender of src/unnamed/part_000 over the scalar engine: both
instances start from create. -/
def simulate_extender (pl lpl L fuel : Nat) : Option SimResult :=
  simulate_extender_loop pl lpl fuel (create L) (create L) 0

end fallback

namespace avx2

/-- The main loop of simulate_extender of src/unnamed/part_000 over the
vectorized engine, with CHECK_LOOP and FAST_LOOP_DETECTION both 1 as in
constants.h. With fuel; logging and timing are omitted. -/
def simulate_extender_loop (L pl lpl : Nat) :
    Nat → AExtender → AExtender → Nat → Option SimResult
  | 0, _, _, _ => none
  | fuel + 1, fast, slow, pulses =>
    if finished L fast then some (.done pulses)
    else
      match simulate_pulse L pl lpl fast with
      | none => none
      | some fast2 =>
        match (if (pulses + 1) % 2 = 0 then simulate_pulse L pl lpl slow
          else some slow) with
        | none => none
        | some slow2 =>
          if equals L fast2 slow2 then some (.loop (pulses + 1))
          else simulate_extender_loop L pl lpl fuel fast2 slow2 (pulses + 1)

/-- simulate_extender of src/unnamed/part_000 over the vectorized engine:
both instances start from create. -/
def simulate_extender (L pl lpl fuel : Nat) : Option SimResult :=
  simulate_extender_loop L pl lpl fuel (create L) (create L) 0

end avx2

set_option maxRecDepth 10000 in
/-- C1: refuted as stated, in both of its conjuncts. First, at kLength = 0
(pushLimit 1, lastPushLimit 2) the scalar engine is already finished at
pulse 0, right after create, while the vectorized engine reports not
finished at pulse 0 and finished only at pulse 1. Second, at kLength = 14
with pushLimit = lastPushLimit = 3 both engines cycle, but the
tortoise-and-hare driver over the scalar engine reports the loop at pulse
39 while over the vectorized engine it reports the loop at pulse 79. -/
theorem C1_engine_divergence :
    (fallback.finished (fallback.create 0) = true ∧
     avx2.finished 0 (avx2.create 0) = false ∧
     (avx2.run 0 1 2 1).map (avx2.finished 0) = some true) ∧
    (fallback.simulate_extender 3 3 14 200 = some (SimResult.loop 39) ∧
     avx2.simulate_extender 14 3 3 200 = some (SimResult.loop 79) ∧
     (39 : Nat) ≠ 79) := by decide

set_option maxRecDepth 10000 in
/-- C1 (amended): the engine agreement is not universal — at kLength = 0
the finished pulse counts differ and on cycling instances the reported
cycle pulse counts differ (see the counterexample) — but on terminating
instances the engines do agree: for every kLength from 1 to 5 and both
parameter choices (pushLimit, lastPushLimit) = (1, 2) and (2, 3), the two
engines report identical finished values at every pulse count up to 12,
and the full driver runs of both engines report Done at identical pulse
counts. -/
theorem C1_amended_agreement (L : Nat) (h5 : L ≤ 5) (h1 : 1 ≤ L) :
    (∀ n, n ≤ 12 →
      ((fallback.run 1 2 L n).map fallback.finished
        = (avx2.run L 1 2 n).map (avx2.finished L)) ∧
      ((fallback.run 2 3 L n).map fallback.finished
        = (avx2.run L 2 3 n).map (avx2.finished L))) ∧
    fallback.simulate_extender 1 2 L 60 = avx2.simulate_extender L 1 2 60 ∧
    fallback.simulate_extender 2 3 L 60 = avx2.simulate_extender L 2 3 60 := by
  revert L
  decide

/-- Witness for the amended C1 at kLength = 3. -/
theorem C1_amended_agreement_witness :
    (3 : Nat) ≤ 5 ∧ 1 ≤ 3 ∧
    ((∀ n, n ≤ 12 →
      ((fallback.run 1 2 3 n).map fallback.finished
        = (avx2.run 3 1 2 n).map (avx2.finished 3)) ∧
      ((fallback.run 2 3 3 n).map fallback.finished
        = (avx2.run 3 2 3 n).map (avx2.finished 3))) ∧
    fallback.simulate_extender 1 2 3 60 = avx2.simulate_extender 3 1 2 60 ∧
    fallback.simulate_extender 2 3 3 60 = avx2.simulate_extender 3 2 3 60) :=
  ⟨by norm_num, by norm_num, C1_amended_agreement 3 (by norm_num) (by norm_num)⟩

/-- C2: conservation of mass in both engines. Every state reachable from
create by simulate_pulse calls has total mass kLength + 1: in the scalar
engine the sum of all cell lengths, in the vectorized engine the sum of the
dense entries not resident in the window plus all lanes of the two window
registers. Stated for extenders whose mass fits the uint8_t lane of the
specialization under proof. -/
theorem C2_conservation (pl lpl L : Nat) (hL : L + 1 ≤ 255) :
    (∀ n e, fallback.run pl lpl L n = some e →
      fallback.sumLens e.segments = L + 1) ∧
    (∀ n e, avx2.run L pl lpl n = some e → avx2.windowMass L e = L + 1) := by
  constructor
  · exact fun n e h => fallback.run_sum pl lpl L n e h
  · intro n e h
    exact (avx2.run_AInv_of L pl lpl hL n e h).hmass

/-- Witness for C2 at the shipped parameters kLength = 65. -/
theorem C2_conservation_witness :
    (65 : Nat) + 1 ≤ 255 ∧
    fallback.sumLens (fallback.create 65).segments = 65 + 1 ∧
    avx2.windowMass 65 (avx2.create 65) = 65 + 1 :=
  ⟨by norm_num,
    (C2_conservation 1 2 65 (by norm_num)).1 0 (fallback.create 65) rfl,
    (C2_conservation 1 2 65 (by norm_num)).2 0 (avx2.create 65) rfl⟩

/-- C3: the scalar per-pulse push rule. One pulse from any reachable state
produces a visit trace along which every visited cell of length greater
than one moves exactly min(limit, len - 1) blocks into the next array slot,
where limit is kLastPushLimit exactly when the cell has no successor and
kPushLimit otherwise; the source cell keeps at least one block; and when
the next slot held zero it is spliced into the chain right after the
current cell — the PushStep relation, holding at every trace entry. -/
theorem C3_push_rule (pl lpl L n : Nat) (hpl : 1 ≤ pl) (hlpl : pl ≤ lpl)
    (e : fallback.Extender) (hrun : fallback.run pl lpl L n = some e) :
    ∃ segs2 log,
      fallback.pulseLoopLog pl lpl e.segments.length e.segments 0
        = some (segs2, log) ∧
      fallback.simulate_pulse pl lpl e = some ⟨segs2⟩ ∧
      fallback.PushLog pl lpl segs2 log := by
  have hinv := fallback.run_inv_of pl lpl L hpl hlpl n e hrun
  obtain ⟨segs2, log, hlog, _, _, _, _, _, _, _, hpushlog⟩ :=
    fallback.pulseLoopLog_spec pl lpl L hpl hlpl e.segments.length e.segments 0
      hinv (by omega) (fallback.lenAt_pos_of_inv_zero hinv)
      (by rw [hinv.hlen]; omega)
  refine ⟨segs2, log, hlog, ?_, hpushlog⟩
  rw [fallback.simulate_pulse, fallback.pulseLoop_eq_log, hlog]
  rfl

/-- Witness for C3 on the fully extended kLength = 3 state. -/
theorem C3_push_rule_witness :
    1 ≤ 1 ∧ (1 : Nat) ≤ 2 ∧
    (∃ segs2 log,
      fallback.pulseLoopLog 1 2 (fallback.create 3).segments.length
        (fallback.create 3).segments 0 = some (segs2, log) ∧
      fallback.simulate_pulse 1 2 (fallback.create 3) = some ⟨segs2⟩ ∧
      fallback.PushLog 1 2 segs2 log) :=
  ⟨le_refl 1, by norm_num,
    C3_push_rule 1 2 3 0 (le_refl 1) (by norm_num) (fallback.create 3) rfl⟩

/-- C4: on every reachable scalar state, finished answers true exactly when
cell 0 has no linked successor, equivalently exactly when cell 0 holds all
kLength + 1 blocks and every other cell is empty. -/
theorem C4_finished_iff_terminal (pl lpl L n : Nat) (hpl : 1 ≤ pl)
    (hlpl : pl ≤ lpl) (e : fallback.Extender)
    (hrun : fallback.run pl lpl L n = some e) :
    (fallback.finished e = true ↔ fallback.nextAt e.segments 0 = none) ∧
    (fallback.finished e = true ↔ (fallback.lenAt e.segments 0 = L + 1 ∧
      ∀ i, 1 ≤ i → i < L + 1 → fallback.lenAt e.segments i = 0)) :=
  fallback.finished_iff L e (fallback.run_inv_of pl lpl L hpl hlpl n e hrun)

/-- Witness for C4 on the kLength = 3 instance after three pulses, where
the extender has terminated. -/
theorem C4_finished_iff_terminal_witness :
    1 ≤ 1 ∧ (1 : Nat) ≤ 2 ∧
    ((fallback.finished (fallback.Extender.mk
        [⟨4, none⟩, ⟨0, none⟩, ⟨0, none⟩, ⟨0, none⟩]) = true ↔
      fallback.nextAt [⟨4, none⟩, ⟨0, none⟩, ⟨0, none⟩, ⟨0, none⟩] 0 = none) ∧
     (fallback.finished (fallback.Extender.mk
        [⟨4, none⟩, ⟨0, none⟩, ⟨0, none⟩, ⟨0, none⟩]) = true ↔
      (fallback.lenAt [⟨4, none⟩, ⟨0, none⟩, ⟨0, none⟩, ⟨0, none⟩] 0 = 3 + 1 ∧
       ∀ i, 1 ≤ i → i < 3 + 1 →
         fallback.lenAt [⟨4, none⟩, ⟨0, none⟩, ⟨0, none⟩, ⟨0, none⟩] i = 0))) :=
  ⟨le_refl 1, by norm_num,
    C4_finished_iff_terminal 1 2 3 3 (le_refl 1) (by norm_num)
      ⟨[⟨4, none⟩, ⟨0, none⟩, ⟨0, none⟩, ⟨0, none⟩]⟩ (by decide)⟩

/-- C5: refuted as stated. At kLength 3 with push limits 1 and 2, one pulse
from the fully extended state [1, 1, 1, 1] yields the length sequence
[2, 0, 2, 0], not the [1, 1, 0, 2] the spec predicts. -/
theorem C5_counterexample_first_pulse :
    (fallback.run 1 2 3 1).map (fun e => fallback.lensOf e.segments)
      = some [2, 0, 2, 0] ∧
    [2, 0, 2, 0] ≠ [1, 1, 0, 2] := by decide

/-- C5 (amended): the exact state after one pulse of the kLength 3
instance: lengths [2, 0, 2, 0], cell 0 linked directly to cell 2 and cell 2
terminal, so the linked chain is [2, 2]. -/
theorem C5_amended_first_pulse :
    fallback.run 1 2 3 1
      = some ⟨[⟨2, some 2⟩, ⟨0, some 2⟩, ⟨2, none⟩, ⟨0, none⟩]⟩ := by decide

/-- C6: refuted as stated. Pulsing past termination preserves the mass but
not segment 0: from the reachable finished state of the kLength 3 instance
(cell 0 holding all 4 blocks), one further pulse leaves cell 0 with length
2, not kLength + 1 = 4. -/
theorem C6_counterexample_seg0_shrinks :
    (fallback.run 1 2 3 3).map fallback.finished = some true ∧
    (fallback.run 1 2 3 4).map (fun e => fallback.lenAt e.segments 0) = some 2 ∧
    (2 : Nat) ≠ 3 + 1 := by decide

/-- C6 (amended): advancing past a finished state cannot corrupt the
conservation invariant: the pulse succeeds and the total mass is still
kLength + 1 (segment 0, however, does not keep length kLength + 1 — see
the counterexample). -/
theorem C6_amended_conservation_past_finished (pl lpl L n : Nat)
    (hpl : 1 ≤ pl) (hlpl : pl ≤ lpl) (e : fallback.Extender)
    (hrun : fallback.run pl lpl L n = some e)
    (hfin : fallback.finished e = true) :
    ∃ e2, fallback.simulate_pulse pl lpl e = some e2 ∧
      fallback.sumLens e2.segments = L + 1 := by
  have hinv := fallback.run_inv_of pl lpl L hpl hlpl n e hrun
  obtain ⟨e2, hp, hinv2, _⟩ :=
    fallback.simulate_pulse_spec pl lpl L hpl hlpl e hinv
  exact ⟨e2, hp, hinv2.hsum⟩

/-- Witness for C6 on the finished kLength = 3 state. -/
theorem C6_amended_witness :
    1 ≤ 1 ∧ (1 : Nat) ≤ 2 ∧
    fallback.run 1 2 3 3
      = some ⟨[⟨4, none⟩, ⟨0, none⟩, ⟨0, none⟩, ⟨0, none⟩]⟩ ∧
    fallback.finished ⟨[⟨4, none⟩, ⟨0, none⟩, ⟨0, none⟩, ⟨0, none⟩]⟩ = true ∧
    (∃ e2, fallback.simulate_pulse 1 2
        ⟨[⟨4, none⟩, ⟨0, none⟩, ⟨0, none⟩, ⟨0, none⟩]⟩ = some e2 ∧
      fallback.sumLens e2.segments = 3 + 1) :=
  ⟨le_refl 1, by norm_num, by decide, by decide,
    C6_amended_conservation_past_finished 1 2 3 3 (le_refl 1) (by norm_num)
      ⟨[⟨4, none⟩, ⟨0, none⟩, ⟨0, none⟩, ⟨0, none⟩]⟩ (by decide) (by decide)⟩

/-- C7: one pulse from any reachable scalar state terminates, visiting each
linked cell at most once in strictly increasing index order, with at most
kLength + 1 visits in total; the pulse returns exactly the traced final
state. -/
theorem C7_pulse_terminates (pl lpl L n : Nat) (hpl : 1 ≤ pl)
    (hlpl : pl ≤ lpl) (e : fallback.Extender)
    (hrun : fallback.run pl lpl L n = some e) :
    ∃ segs2 log,
      fallback.pulseLoopLog pl lpl e.segments.length e.segments 0
        = some (segs2, log) ∧
      fallback.simulate_pulse pl lpl e = some ⟨segs2⟩ ∧
      List.Chain' (fun a b => a < b) (log.map Prod.fst) ∧
      log.length ≤ L + 1 ∧
      (∀ pr ∈ log, pr.1 < L + 1) := by
  have hinv := fallback.run_inv_of pl lpl L hpl hlpl n e hrun
  obtain ⟨segs2, log, hlog, _, _, _, _, hchain, hbound, hlen, _⟩ :=
    fallback.pulseLoopLog_spec pl lpl L hpl hlpl e.segments.length e.segments 0
      hinv (by omega) (fallback.lenAt_pos_of_inv_zero hinv)
      (by rw [hinv.hlen]; omega)
  rw [hinv.hlen] at hlen
  refine ⟨segs2, log, hlog, ?_, hchain, hlen, fun pr hpr => (hbound pr hpr).2⟩
  rw [fallback.simulate_pulse, fallback.pulseLoop_eq_log, hlog]
  rfl

/-- Witness for C7 on the fully extended kLength = 3 state. -/
theorem C7_pulse_terminates_witness :
    1 ≤ 1 ∧ (1 : Nat) ≤ 2 ∧
    (∃ segs2 log,
      fallback.pulseLoopLog 1 2 (fallback.create 3).segments.length
        (fallback.create 3).segments 0 = some (segs2, log) ∧
      fallback.simulate_pulse 1 2 (fallback.create 3) = some ⟨segs2⟩ ∧
      List.Chain' (fun a b => a < b) (log.map Prod.fst) ∧
      log.length ≤ 3 + 1 ∧
      (∀ pr ∈ log, pr.1 < 3 + 1)) :=
  ⟨le_refl 1, by norm_num,
    C7_pulse_terminates 1 2 3 0 (le_refl 1) (by norm_num)
      (fallback.create 3) rfl⟩

/-- C8: create of the scalar engine always succeeds and yields the fully
extended configuration: kLength + 1 cells, each of length one, linked in
index order, the last cell terminal. -/
theorem C8_create_fully_extended (L : Nat) :
    (fallback.create L).segments.length = L + 1 ∧
    (∀ i, i < L + 1 → fallback.lenAt (fallback.create L).segments i = 1) ∧
    (∀ i, i < L → fallback.nextAt (fallback.create L).segments i
      = some (i + 1)) ∧
    fallback.nextAt (fallback.create L).segments L = none := by
  refine ⟨by simp [fallback.create], ?_, ?_, ?_⟩
  · intro i hi
    rw [fallback.lenAt, fallback.create]
    simp [List.getElem?_map, List.getElem?_range hi]
  · intro i hi
    rw [fallback.nextAt, fallback.create]
    simp [List.getElem?_map, List.getElem?_range (show i < L + 1 by omega)]
    omega
  · rw [fallback.nextAt, fallback.create]
    simp [List.getElem?_map, List.getElem?_range (show L < L + 1 by omega)]

/-- C9: equality is reflexive on every reachable state of either engine,
and two states created and advanced by the same number of pulses compare
equal (the runs are deterministic, so the two states coincide). -/
theorem C9_equals_reflexive (pl lpl L n : Nat) (hpl : 1 ≤ pl)
    (hlpl : pl ≤ lpl) :
    (∀ e, fallback.run pl lpl L n = some e →
      fallback.equals e e = some true) ∧
    (∀ e1 e2, fallback.run pl lpl L n = some e1 →
      fallback.run pl lpl L n = some e2 →
      fallback.equals e1 e2 = some true) ∧
    (∀ e, avx2.run L pl lpl n = some e → avx2.equals L e e = true) ∧
    (∀ e1 e2, avx2.run L pl lpl n = some e1 → avx2.run L pl lpl n = some e2 →
      avx2.equals L e1 e2 = true) := by
  have hs : ∀ e, fallback.run pl lpl L n = some e →
      fallback.equals e e = some true := by
    intro e h
    exact fallback.equals_self L e (fallback.run_inv_of pl lpl L hpl hlpl n e h)
  refine ⟨hs, ?_, fun e _ => avx2.equals_refl L e, ?_⟩
  · intro e1 e2 h1 h2
    rw [h1] at h2
    obtain rfl := Option.some_inj.mp h2
    exact hs e1 h1
  · intro e1 e2 h1 h2
    rw [h1] at h2
    obtain rfl := Option.some_inj.mp h2
    exact avx2.equals_refl L e1

/-- Witness for C9 on the created kLength = 3 states. -/
theorem C9_equals_reflexive_witness :
    1 ≤ 1 ∧ (1 : Nat) ≤ 2 ∧
    fallback.equals (fallback.create 3) (fallback.create 3) = some true ∧
    avx2.equals 3 (avx2.create 3) (avx2.create 3) = true :=
  ⟨le_refl 1, by norm_num,
    (C9_equals_reflexive 1 2 3 0 (le_refl 1) (by norm_num)).1
      (fallback.create 3) rfl,
    (C9_equals_reflexive 1 2 3 0 (le_refl 1) (by norm_num)).2.2.1
      (avx2.create 3) rfl⟩

/-- C10: after create and after every complete vectorized pulse, the run
state exists, the cursor is even, at most kSaturationCount and inside the
dense array, and the first-segment lane index computed by _finished lies
inside the register's kElemCount lanes, so the assertions of _finished and
_equals hold whenever the driver calls them. -/
theorem C10_cursor_safety (L pl lpl n : Nat) :
    ∃ e, avx2.run L pl lpl n = some e ∧ e.p % 2 = 0 ∧
      e.p ≤ avx2.kSatCount L ∧ e.p < avx2.kSegCount L ∧
      (if 0 < e.p then 1 else 0) * ((avx2.kSatCount L - e.p) / 2)
        < avx2.kElemCount := by
  obtain ⟨e, hrun, h1, h2, h3⟩ := avx2.run_PCur L pl lpl n
  refine ⟨e, hrun, h1, h2, h3, ?_⟩
  have hk := avx2.kSat_le_64 L
  rw [avx2.kElemCount]
  split
  · omega
  · omega

end snaperz
